import Mathlib

/-!
# hw-shell: the command execution pipeline of `shell.c`

A shallow embedding of `src/hw-shell/shell.c`: the built-in lookup, the
redirector, the argument vector builder (`handle_args`), the process spawner
(`exec_program`) and the pipeline loop of `main`, over an explicit model of the
process state (descriptor table, pipes, fork, execv).

Conventions.
* A `char*` is a `CStr`; `none` is NULL.
* Operating-system outcomes the program cannot control (whether `pipe`, `fork`,
  `open`, `execv`, `access` succeed, what `PATH` holds, what the uninitialised
  locals of `handle_args` and `main` hold) are read from an `Env`.
* The `args` array of `exec_program` is represented by the chronological log of
  the writes `args[i] = v` that `handle_args` performs.
* `Proc` carries, besides the descriptor table, observation logs of the calls
  made so far; they do not influence control flow.
* A run ends by returning, by a successful `execv`, by `exit`, or by a fault (a
  NULL string handed to a string function).
-/

namespace Shell

/-! ## Strings, tokens, constants -/

/-- A C string pointer; `none` stands for NULL. -/
abbrev CStr := Option String

/-- The macro `REDIRECTION_IN` (shell.c:19). -/
def REDIRECTION_IN : String := "<"

/-- The macro `REDIRECTION_OUT` (shell.c:20). -/
def REDIRECTION_OUT : String := ">"

/-- The macro `PIPE` (shell.c:21). -/
def PIPE : String := "|"

/-- Descriptor number of standard input. -/
def STDIN_FILENO : Int := 0

/-- Descriptor number of standard output. -/
def STDOUT_FILENO : Int := 1

/-- Modelled from the spec: the token sequence of the tokenizer (`tokenizer.h` is
not among the sources): an ordered, index-addressable sequence of strings. -/
abbrev Tokens := List String

/-- Modelled from the spec: the accessor `length(seq)` of the tokenizer. -/
def tokens_get_length (tokens : Tokens) : Nat := tokens.length

/-- Modelled from the spec: the accessor `token_at(seq, i)` of the tokenizer; it
yields no token (NULL) at an index outside the sequence. -/
def tokens_get_token (tokens : Tokens) (i : Nat) : CStr := tokens[i]?

/-! ## Descriptor tables -/

/-- What an open descriptor refers to. -/
inductive FileObj
  | inherited (desc : Nat)
  | pipeRead (junction : Nat)
  | pipeWrite (junction : Nat)
  | file (path : String) (input : Bool)
  deriving DecidableEq, Repr

/-- The descriptor table of a process: entry `fd` is `none` when `fd` is closed;
descriptors beyond the end of the list are closed. -/
abbrev FdTable := List (Option FileObj)

/-- The object descriptor `fd` refers to, if open. -/
def fdGet : FdTable → Nat → Option FileObj
  | [], _ => none
  | x :: _, 0 => x
  | _ :: t, n + 1 => fdGet t n

/-- Make descriptor `fd` refer to `v`. -/
def fdSet : FdTable → Nat → Option FileObj → FdTable
  | [], 0, v => [v]
  | [], n + 1, v => none :: fdSet [] n v
  | _ :: t, 0, v => v :: t
  | x :: t, n + 1, v => x :: fdSet t n v

/-- Mark descriptor `fd` closed. -/
def fdClear : FdTable → Nat → FdTable
  | [], _ => []
  | _ :: t, 0 => none :: t
  | x :: t, n + 1 => x :: fdClear t n

/-- The lowest-numbered closed descriptor, which is what `open` and `pipe` hand out. -/
def lowestFree : FdTable → Nat
  | [] => 0
  | none :: _ => 0
  | some _ :: t => lowestFree t + 1

/-! ## Process state and environment -/

/-- Observation of a child at shell.c:203, right after its pipe wiring and before
its argument handling. -/
structure Wiring where
  /-- The indices at which the child read the `pipes` array, in order. -/
  touched : List Int
  /-- The descriptor pairs `pipe` had returned when the child was forked. -/
  pipe_fds : List (Nat × Nat)
  /-- The descriptor table of the child. -/
  fds : FdTable
  deriving DecidableEq, Repr

/-- The state of one process while it handles a line. -/
structure Proc where
  /-- Descriptor table. -/
  fds : FdTable
  /-- Number of `pipe` calls made so far. -/
  npipe : Nat
  /-- Number of `fork` calls made so far. -/
  nfork : Nat
  /-- Number of `open` calls made so far. -/
  nopen : Nat
  /-- Log: descriptor pairs (read end, write end) returned by successful `pipe` calls. -/
  pipe_fds : List (Nat × Nat)
  /-- Log: the `(start, end, n_proc)` of every `exec_program` call. -/
  calls : List (Nat × Nat × Int)
  /-- Log: the `(program, args)` of every `execv` call, `args` as a write log. -/
  execvs : List (CStr × List (Nat × CStr))
  /-- Log: one observation per pipe wiring this process went through as a child. -/
  wired : List Wiring
  deriving DecidableEq, Repr

/-- Everything the program reads from its surroundings. -/
structure Env where
  /-- The directories of the environment variable `PATH`, in order: the pieces
  `strtok_r` cuts at `:`. -/
  path_dirs : List String
  /-- Whether `access(path, F_OK)` finds the file. -/
  access_ok : String → Bool
  /-- Whether the n-th `pipe` call succeeds. -/
  pipe_ok : Nat → Bool
  /-- Return value of the n-th `fork` call in this process. -/
  fork_ret : Nat → Int
  /-- Whether the n-th `open` call succeeds. -/
  open_ok : Nat → Bool
  /-- Whether `execv` of this program with these arguments succeeds. -/
  execv_ok : String → List (Nat × CStr) → Bool
  /-- Indeterminate initial value of the uninitialised local `redirect_in`. -/
  redirect_in0 : Bool
  /-- Indeterminate initial value of the uninitialised local `redirect_out`. -/
  redirect_out0 : Bool
  /-- Indeterminate initial content of the uninitialised array `pipes` of `main`
  (and of the memory around it). -/
  pipes0 : Int → Int × Int

/-- The process state before a line is handled: `t` tells which descriptors are
open and which inherited open file description each refers to. -/
def initProc (t : List (Option Nat)) : Proc :=
  { fds := t.map (Option.map FileObj.inherited), npipe := 0, nfork := 0, nopen := 0,
    pipe_fds := [], calls := [], execvs := [], wired := [] }

/-! ## System calls -/

/-- The call `close(fd)`; its return value is never used by the program. -/
def sys_close (p : Proc) (fd : Int) : Proc :=
  if fd < 0 then p else { p with fds := fdClear p.fds fd.toNat }

/-- The call `dup2(oldfd, newfd)`: fails with -1 when `oldfd` is not open. -/
def sys_dup2 (p : Proc) (oldfd newfd : Int) : Int × Proc :=
  if oldfd < 0 ∨ newfd < 0 then (-1, p)
  else
    match fdGet p.fds oldfd.toNat with
    | none => (-1, p)
    | some o => (newfd, { p with fds := fdSet p.fds newfd.toNat (some o) })

/-- The call `open(path, flags)`: on success the lowest free descriptor. -/
def sys_open (env : Env) (p : Proc) (path : CStr) (input : Bool) : Int × Proc :=
  match path with
  | none => (-1, p)
  | some path =>
    let p1 := { p with nopen := p.nopen + 1 }
    if env.open_ok p.nopen then
      let fd := lowestFree p1.fds
      ((fd : Int), { p1 with fds := fdSet p1.fds fd (some (FileObj.file path input)) })
    else (-1, p1)

/-- The call `pipe(pipes[slot])`: on success stores the two lowest free
descriptors in the slot; on failure leaves the slot as it was. -/
def sys_pipe (env : Env) (pipes : Int → Int × Int) (slot : Int) (p : Proc) :
    Int × (Int → Int × Int) × Proc :=
  let p1 := { p with npipe := p.npipe + 1 }
  if env.pipe_ok p.npipe then
    let r := lowestFree p1.fds
    let t1 := fdSet p1.fds r (some (FileObj.pipeRead p.npipe))
    let w := lowestFree t1
    let t2 := fdSet t1 w (some (FileObj.pipeWrite p.npipe))
    (0, Function.update pipes slot ((r : Int), (w : Int)),
      { p1 with fds := t2, pipe_fds := p1.pipe_fds ++ [(r, w)] })
  else (-1, pipes, p1)

/-- The call `fork()`, seen from the process that goes on running this code. -/
def sys_fork (env : Env) (p : Proc) : Int × Proc :=
  (env.fork_ret p.nfork, { p with nfork := p.nfork + 1 })

/-! ## PATH search (shell.c:90-109) -/

/-- The function `search_path_programs` on a non-NULL command name: the first
`dir/cmd`, over the directories of `PATH`, that exists; NULL when there is none.
The 4096-byte buffers are not modelled. -/
def search_path_programs (env : Env) (cmd : String) : CStr :=
  (env.path_dirs.map (fun dir => dir ++ "/" ++ cmd)).find? env.access_ok

/-! ## Built-in lookup (shell.c:50-55, 230-235) -/

/-- The command names of `cmd_table`. -/
def cmd_table : List String := ["?", "exit", "pwd", "cd"]

/-- The function `lookup`: index of a built-in, or -1. -/
def lookup (cmd : CStr) : Int :=
  match cmd with
  | none => -1
  | some c =>
    match cmd_table.findIdx? (fun name => name == c) with
    | some i => (i : Int)
    | none => -1

/-! ## Redirector (shell.c:111-142) -/

/-- The function `redirect`. -/
def redirect (env : Env) (p : Proc) (inp : Bool) (path : CStr) : Int × Proc :=
  let std_fd : Int := if inp then STDIN_FILENO else STDOUT_FILENO
  let (file_fd, p1) := sys_open env p path inp
  if inp ∧ file_fd < 0 then (1, p1)
  else if ¬ inp ∧ file_fd < 0 then (1, sys_close p1 file_fd)
  else
    let (r, p2) := sys_dup2 p1 file_fd std_fd
    if r < 0 then (1, sys_close p2 file_fd)
    else (0, sys_close p2 file_fd)

/-! ## Argument vector builder (shell.c:144-177) -/

/-- The locals of `handle_args` together with the `args` array (as a write log)
and the process state. -/
structure ArgScan where
  redirect_in : Bool
  redirect_out : Bool
  index : Nat
  args : List (Nat × CStr)
  proc : Proc
  deriving DecidableEq, Repr

/-- How a run of `handle_args` ends. -/
inductive ScanResult
  /-- Returned `ret`. -/
  | done (ret : Int) (s : ArgScan)
  /-- Passed a NULL token to `strcmp`. -/
  | fault (s : ArgScan)
  deriving DecidableEq, Repr

/-- The `for` loop of `handle_args` with `count` iterations left, at index `i`.
The result `done 0` means the loop ran to its end, `done 1` is the early
`return 1`. -/
def handle_args_loop (env : Env) (tokens : Tokens) : Nat → Nat → ArgScan → ScanResult
  | 0, _, s => ScanResult.done 0 s
  | count + 1, i, s =>
    let token := tokens_get_token tokens i
    if s.redirect_in then
      let (r, p) := redirect env s.proc true token
      if r = 1 then ScanResult.done 1 { s with proc := p }
      else handle_args_loop env tokens count (i + 1) { s with proc := p, redirect_in := false }
    else if s.redirect_out then
      let (r, p) := redirect env s.proc false token
      if r = 1 then ScanResult.done 1 { s with proc := p }
      else handle_args_loop env tokens count (i + 1) { s with proc := p, redirect_out := false }
    else
      match token with
      | none => ScanResult.fault s
      | some tok =>
        if tok = REDIRECTION_IN then
          handle_args_loop env tokens count (i + 1) { s with redirect_in := true }
        else if tok = REDIRECTION_OUT then
          handle_args_loop env tokens count (i + 1) { s with redirect_out := true }
        else
          handle_args_loop env tokens count (i + 1)
            { s with args := s.args ++ [(s.index, some tok)], index := s.index + 1 }

/-- The locals and `args` array at the end of a run of `handle_args`. -/
def ScanResult.scan : ScanResult → ArgScan
  | ScanResult.done _ s => s
  | ScanResult.fault s => s

/-- The function `handle_args`; `rin` and `rout` are the values the
uninitialised locals `redirect_in` and `redirect_out` happen to hold. -/
def handle_args (env : Env) (tokens : Tokens) (program : CStr) (start end_ : Nat)
    (rin rout : Bool) (p : Proc) : ScanResult :=
  let s0 : ArgScan :=
    { redirect_in := rin, redirect_out := rout, index := 1, args := [(0, program)], proc := p }
  match handle_args_loop env tokens (end_ - (start + 1)) (start + 1) s0 with
  | ScanResult.done 0 s => ScanResult.done 0 { s with args := s.args ++ [(s.index, none)] }
  | r => r

/-- Number of slots of the array `char *args[end - start]` (shell.c:204). -/
def args_slots (start end_ : Nat) : Nat := end_ - start

/-! ## Process spawner (shell.c:179-227) -/

/-- How a piece of code ends in the process that runs it. -/
inductive Run (α : Type)
  /-- It returned `a` to its caller. -/
  | ret (a : α) (p : Proc)
  /-- A call to `execv` succeeded: the process image was replaced. -/
  | execd (p : Proc)
  /-- The process called `exit(status)`. -/
  | exited (status : Int) (p : Proc)
  /-- The process passed a NULL string to a string function. -/
  | fault (p : Proc)

/-- The process state at the end of a run. -/
def Run.proc {α : Type} : Run α → Proc
  | Run.ret _ p => p
  | Run.execd p => p
  | Run.exited _ p => p
  | Run.fault p => p

/-- The pipe wiring of the child, shell.c:184-203; the first component lists the
indices at which `pipes` was read. -/
def child_wire (tokens : Tokens) (start end_ : Nat) (pipes : Int → Int × Int) (n_proc : Int)
    (p : Proc) : List Int × Proc :=
  if n_proc ≠ -1 then
    let (touched1, p1) :=
      if end_ ≠ tokens_get_length tokens then
        let p := sys_close p (pipes n_proc).1
        let p := (sys_dup2 p (pipes n_proc).2 STDOUT_FILENO).2
        ([n_proc], sys_close p (pipes n_proc).2)
      else ([], p)
    if start ≠ 0 then
      let p := sys_close p1 (pipes (n_proc - 1)).2
      let p := (sys_dup2 p (pipes (n_proc - 1)).1 STDIN_FILENO).2
      (touched1 ++ [n_proc - 1], sys_close p (pipes (n_proc - 1)).1)
    else (touched1, p1)
  else ([], p)

/-- Record the observation at shell.c:203. -/
def observe_wiring (touched : List Int) (p : Proc) : Proc :=
  { p with wired := p.wired ++ [{ touched := touched, pipe_fds := p.pipe_fds, fds := p.fds }] }

/-- The program string of shell.c:206-208: the path found by the PATH search,
or the command name itself when the search found nothing. -/
def resolve_program (env : Env) (name : String) : String :=
  match search_path_programs env name with
  | some path => path
  | none => name

/-- The function `exec_program`, in the process that goes on running this code
after `fork` (the parent when `fork` returns non-zero, the child when it
returns 0). In the child a NULL token at `start` (a range that starts at the
end of the sequence) is handed to `strcat` by the PATH search: the run ends in
`fault`. -/
def exec_program (env : Env) (tokens : Tokens) (start end_ : Nat) (pipes : Int → Int × Int)
    (n_proc : Int) (p : Proc) : Run Int :=
  let p := { p with calls := p.calls ++ [(start, end_, n_proc)] }
  let (pid, p) := sys_fork env p
  if pid < 0 then
    Run.ret 0 p
  else if pid = 0 then
    let (touched, p) := child_wire tokens start end_ pipes n_proc p
    let p := observe_wiring touched p
    match tokens_get_token tokens start with
    | none => Run.fault p
    | some name =>
      let program := resolve_program env name
      match handle_args env tokens (some program) start end_
          env.redirect_in0 env.redirect_out0 p with
      | ScanResult.fault s => Run.fault s.proc
      | ScanResult.done ret s =>
        if ret = 1 then
          Run.ret 1 s.proc
        else
          let p := { s.proc with execvs := s.proc.execvs ++ [(some program, s.args)] }
          if env.execv_ok program s.args then Run.execd p else Run.ret 1 p
  else
    let p :=
      if n_proc ≠ -1 ∧ start ≠ 0 then
        sys_close (sys_close p (pipes (n_proc - 1)).1) (pipes (n_proc - 1)).2
      else p
    Run.ret 0 p

/-! ## The read loop of `main` (shell.c:273-309), one line -/

/-- The locals `n_proc`, `start` and `pipes` of the `else` branch of `main`. -/
structure LineState where
  n_proc : Int
  start : Nat
  pipes : Int → Int × Int

/-- The `for` loop of shell.c:287-295 with `count` iterations left, at index `i`. -/
def main_loop (env : Env) (tokens : Tokens) : Nat → Nat → LineState → Proc → Run LineState
  | 0, _, s, p => Run.ret s p
  | count + 1, i, s, p =>
    match tokens_get_token tokens i with
    | none => Run.fault p
    | some tok =>
      if tok = PIPE then
        let (_, pipes1, p1) := sys_pipe env s.pipes s.n_proc p
        match exec_program env tokens s.start i pipes1 s.n_proc p1 with
        | Run.ret _ p2 =>
          main_loop env tokens count (i + 1)
            { n_proc := s.n_proc + 1, start := i + 1, pipes := pipes1 } p2
        | Run.execd p2 => Run.execd p2
        | Run.exited st p2 => Run.exited st p2
        | Run.fault p2 => Run.fault p2
      else main_loop env tokens count (i + 1) s p

/-- The built-in handlers, as far as the process state modelled here goes:
`cmd_exit` (index 1) calls `exit(0)`, the others return. -/
def run_builtin (fundex : Int) (p : Proc) : Run Unit :=
  if fundex = 1 then Run.exited 0 p else Run.ret () p

/-- Forget the value a piece of code returned. -/
def Run.void {α : Type} : Run α → Run Unit
  | Run.ret _ p => Run.ret () p
  | Run.execd p => Run.execd p
  | Run.exited st p => Run.exited st p
  | Run.fault p => Run.fault p

/-- The call of `exec_program` for the last stage, shell.c:296-300. -/
def last_stage (env : Env) (tokens : Tokens) (s : LineState) (p : Proc) : Run Unit :=
  (if s.n_proc = 0 then
    exec_program env tokens s.start (tokens_get_length tokens) s.pipes (-1) p
  else
    exec_program env tokens s.start (tokens_get_length tokens) s.pipes s.n_proc p).void

/-- One iteration of the read loop of `main`, from the built-in lookup on, for
the token sequence of the line. -/
def main_line (env : Env) (tokens : Tokens) (p : Proc) : Run Unit :=
  let fundex := lookup (tokens_get_token tokens 0)
  if fundex ≥ 0 then
    run_builtin fundex p
  else
    match main_loop env tokens (tokens_get_length tokens) 0
        { n_proc := 0, start := 0, pipes := env.pipes0 } p with
    | Run.ret s p1 => last_stage env tokens s p1
    | Run.execd p1 => Run.execd p1
    | Run.exited st p1 => Run.exited st p1
    | Run.fault p1 => Run.fault p1

/-! ## Specification-side vocabulary -/

/-- Whether a token is a redirection operator, `<` or `>`. -/
def is_redirection (tok : String) : Bool :=
  tok == REDIRECTION_IN || tok == REDIRECTION_OUT

/-- The tokens of the stage range `[start, end_)` after its first one, that is
the tokens at positions `start + 1 .. end_ - 1`. -/
def stage_rest (tokens : Tokens) (start end_ : Nat) : List String :=
  (tokens.drop (start + 1)).take (end_ - (start + 1))

/-- From the words of the spec (section 4.2): scanning left to right, an operator
met in unarmed mode arms a mode for exactly the next token, which is consumed as
a path; any other token met in unarmed mode is an argument. The flag tells
whether a mode is armed. -/
def kept_tokens : Bool → List String → List String
  | _, [] => []
  | true, _ :: rest => kept_tokens false rest
  | false, t :: rest =>
    if is_redirection t then kept_tokens true rest else t :: kept_tokens false rest

/-- From the words of the spec: whether the scan ends with a mode armed, that is
whether an operator met in unarmed mode is the last token (dangling redirection). -/
def dangling : Bool → List String → Bool
  | armed, [] => armed
  | true, _ :: rest => dangling false rest
  | false, t :: rest => if is_redirection t then dangling true rest else dangling false rest

/-- The redirection mode the flags `redirect_in` and `redirect_out` stand for:
armed for input, armed for output, or unarmed; input is looked at first. -/
def scan_mode (rin rout : Bool) : Option Bool :=
  if rin then some true else if rout then some false else none

/-- From the words of the spec (section 4.2): the redirections a scan asks for,
in order, each as the direction (`true` for input) and the path. An operator met
in unarmed mode arms its mode for exactly the next token, which is the path; an
operator with no next token asks for nothing. The first argument is the mode
the scan starts in. -/
def redirect_pairs : Option Bool → List String → List (Bool × String)
  | _, [] => []
  | some d, t :: rest => (d, t) :: redirect_pairs none rest
  | none, t :: rest =>
    if t = REDIRECTION_IN then redirect_pairs (some true) rest
    else if t = REDIRECTION_OUT then redirect_pairs (some false) rest
    else redirect_pairs none rest

/-- The process state after the redirector was applied to each of the
redirections `l` in turn. -/
def apply_redirects (env : Env) (p : Proc) (l : List (Bool × String)) : Proc :=
  l.foldl (fun q x => (redirect env q x.1 (some x.2)).2) p

/-- The positions of the tokens equal to `|`, in increasing order. -/
def pipe_positions (tokens : Tokens) : List Nat :=
  (List.range tokens.length).filter (fun j => decide (tokens_get_token tokens j = some PIPE))

/-- The ranges `[start, q0), [q0 + 1, q1), ..., [q(k-1) + 1, len)` cut out by the
split points `q0, q1, ..., q(k-1)`. -/
def stage_ranges : Nat → List Nat → Nat → List (Nat × Nat)
  | start, [], len => [(start, len)]
  | start, q :: qs, len => (start, q) :: stage_ranges (q + 1) qs len

/-- The writes `args[k] = t0, args[k+1] = t1, ...` of consecutive arguments. -/
def arg_writes : Nat → List String → List (Nat × CStr)
  | _, [] => []
  | k, t :: ts => (k, some t) :: arg_writes (k + 1) ts

/-! ## Concrete environments and inputs -/

/-- The shell's view of a run in which `pipe`, `fork`, `open` and `execv` succeed:
`fork` returns a child pid; the PATH search finds nothing. -/
def env_parent : Env :=
  { path_dirs := ["/usr/bin", "/bin"], access_ok := fun _ => false, pipe_ok := fun _ => true,
    fork_ret := fun _ => 100,
    open_ok := fun _ => true, execv_ok := fun _ _ => true, redirect_in0 := false,
    redirect_out0 := false, pipes0 := fun _ => (-1, -1) }

/-- The view of a child: `fork` returns 0; every other call succeeds. -/
def env_child : Env := { env_parent with fork_ret := fun _ => 0 }

/-- The view of a child on a system where `/bin/echo` exists. -/
def env_child_resolved : Env :=
  { env_child with access_ok := fun path => decide (path = "/bin/echo") }

/-- The view of a child whose `execv` fails. -/
def env_child_noexec : Env := { env_child with execv_ok := fun _ _ => false }

/-- The view of the child of stage 2 when the `fork` for stage 1 had failed in the
shell: the three forks return a child pid, -1 and 0. -/
def env_stage_after_failure : Env :=
  { env_parent with fork_ret := fun n => if n = 0 then 100 else if n = 1 then -1 else 0 }

/-- Descriptors 0 and 2 open, descriptor 1 (standard output) closed. -/
def fds_stdout_closed : List (Option Nat) := [some 0, none, some 2]

/-- The shell's view of a run in which the second `fork` fails. -/
def env_fork_fails : Env := { env_parent with fork_ret := fun n => if n = 1 then -1 else 100 }

/-- The view of the child of stage `i`: the forks before the one for stage `i`
return a child pid, the fork for stage `i` returns 0. -/
def env_stage (i : Nat) : Env := { env_parent with fork_ret := fun n => if n = i then 0 else 100 }

/-- The view of a child whose `open` calls fail. -/
def env_child_noopen : Env := { env_child with open_ok := fun _ => false }

/-- Descriptors 0, 1 and 2 open, nothing else. -/
def std_fds : List (Option Nat) := [some 0, some 1, some 2]

/-! ## Definitions used in the proofs -/

/-- Shape of the `args` write log: `args[0] = program` comes first, every later
write is at an index from 1 on and stores no redirection operator. -/
def args_inv (program : CStr) (s : ArgScan) : Prop :=
  1 ≤ s.index ∧ ∃ rest, s.args = (0, program) :: rest ∧
    ∀ w ∈ rest, 1 ≤ w.1 ∧ w.2 ≠ some REDIRECTION_IN ∧ w.2 ≠ some REDIRECTION_OUT

/-- The process `q` differs from `p` at most in its descriptor table and in its
count of `open` calls. -/
def same_logs (p q : Proc) : Prop :=
  q = { p with fds := q.fds, nopen := q.nopen }

/-- The process `p` after one more `exec_program` call and `fork`, with the
wiring observations `obs` and the `execv` calls `extra` added to its logs. -/
def with_logs (p : Proc) (c : Nat × Nat × Int) (obs : List Wiring)
    (extra : List (CStr × List (Nat × CStr))) : Proc :=
  { p with calls := p.calls ++ [c], nfork := p.nfork + 1, wired := p.wired ++ obs,
           execvs := p.execvs ++ extra }

/-- The positions of the `|` tokens among the `n` tokens from index `idx` on. -/
def positions_in (tokens : Tokens) (idx n : Nat) : List Nat :=
  (List.range' idx n).filter (fun j => decide (tokens_get_token tokens j = some PIPE))

/-- The `exec_program` calls the loop of `main` makes at the split points `qs`,
from the locals `start` and `n_proc = m`. -/
def loop_calls : Nat → Int → List Nat → List (Nat × Nat × Int)
  | _, _, [] => []
  | start, m, q :: qs => (start, q, m) :: loop_calls (q + 1) (m + 1) qs

/-- The local `start` after the loop of `main` went over the split points `qs`. -/
def final_start : Nat → List Nat → Nat
  | start, [] => start
  | _, q :: qs => final_start (q + 1) qs

/-- The table `g` with the two ends of junction `label` open at `r` and `w`. -/
def overlay (g : Nat → Option FileObj) (label r w : Nat) : Nat → Option FileObj :=
  fun fd =>
    if fd = r then some (FileObj.pipeRead label)
    else if fd = w then some (FileObj.pipeWrite label)
    else g fd

/-- The table `tab` of the shell after `m` stages were forked: the table `g0` from
before the line, plus, when `m ≥ 1`, the two ends of junction `m - 1`, whose
descriptors are in `pipes[m - 1]`. -/
def junction_open (g0 : Nat → Option FileObj) (m start : Nat) (pipes : Int → Int × Int)
    (tab : Nat → Option FileObj) : Prop :=
  (m = 0 ∧ start = 0 ∧ ∀ fd, tab fd = g0 fd) ∨
  (∃ r w : Nat, 1 ≤ m ∧ start ≠ 0 ∧ pipes ((m : Int) - 1) = ((r : Int), (w : Int)) ∧ r ≠ w ∧
    g0 r = none ∧ g0 w = none ∧ ∀ fd, tab fd = overlay g0 (m - 1) r w fd)

/-- Loop invariant of `main` in the shell process, at a point where `m` stages
were forked. -/
def loop_inv (g0 : Nat → Option FileObj) (m : Nat) (s : LineState) (p : Proc) : Prop :=
  s.n_proc = (m : Int) ∧ p.nfork = m ∧ p.npipe = m ∧ p.wired = [] ∧
  (p.pipe_fds.length = m ∧ ∀ ab ∈ p.pipe_fds, g0 ab.1 = none ∧ g0 ab.2 = none) ∧
  junction_open g0 m s.start s.pipes (fdGet p.fds)

/-- The state of the shell when it calls `exec_program` for stage `m`, right after
creating junction `m`. -/
def pre_fork (g0 : Nat → Option FileObj) (m start : Nat) (pipes : Int → Int × Int)
    (p : Proc) : Prop :=
  p.nfork = m ∧ p.npipe = m + 1 ∧ p.wired = [] ∧
  (p.pipe_fds.length = m + 1 ∧ ∀ ab ∈ p.pipe_fds, g0 ab.1 = none ∧ g0 ab.2 = none) ∧
  ∃ (r w : Nat) (tab : Nat → Option FileObj),
    pipes (m : Int) = ((r : Int), (w : Int)) ∧ r ≠ w ∧ tab r = none ∧ tab w = none ∧
    junction_open g0 m start pipes tab ∧ ∀ fd, fdGet p.fds fd = overlay tab m r w fd

/-- The part of `main_line` after the loop. -/
def finish_line (env : Env) (tokens : Tokens) (r : Run LineState) : Run Unit :=
  match r with
  | Run.ret s p1 => last_stage env tokens s p1
  | Run.execd p1 => Run.execd p1
  | Run.exited st p1 => Run.exited st p1
  | Run.fault p1 => Run.fault p1

/-- What is claimed of the observation `w` of the child of stage `i`, in a
pipeline with `k` junctions. -/
def good_wiring (g0 : Nat → Option FileObj) (i k : Nat) (w : Wiring) : Prop :=
  (fdGet w.fds 1 = some (FileObj.pipeWrite i) ↔ i < k) ∧
  (fdGet w.fds 0 = some (FileObj.pipeRead (i - 1)) ↔ 0 < i) ∧
  (¬ i < k → fdGet w.fds 1 = g0 1) ∧
  (i = 0 → fdGet w.fds 0 = g0 0) ∧
  (∀ fd, fd ≠ 0 → fd ≠ 1 → fdGet w.fds fd = none ∨ fdGet w.fds fd = g0 fd) ∧
  (∀ x ∈ w.touched, 0 ≤ x ∧ x ≤ (i : Int) ∧ x < (k : Int)) ∧
  (w.pipe_fds.length = min (i + 1) k ∧
    ∀ ab ∈ w.pipe_fds, fdGet w.fds ab.1 = none ∧ fdGet w.fds ab.2 = none) ∧
  (∀ fd, fd ≠ 0 → fd ≠ 1 → ∀ j,
    fdGet w.fds fd ≠ some (FileObj.pipeRead j) ∧ fdGet w.fds fd ≠ some (FileObj.pipeWrite j))

/-! ## Lemmas -/

theorem fdGet_fdSet (t : FdTable) (a b : Nat) (v : Option FileObj) :
    fdGet (fdSet t a v) b = if b = a then v else fdGet t b := by
  induction t generalizing a b with
  | nil =>
    induction a generalizing b with
    | zero => cases b <;> simp [fdSet, fdGet]
    | succ a iha =>
      cases b with
      | zero => simp [fdSet, fdGet]
      | succ b => simp [fdSet, fdGet, iha b]
  | cons x t ih =>
    cases a with
    | zero => cases b <;> simp [fdSet, fdGet]
    | succ a =>
      cases b with
      | zero => simp [fdSet, fdGet]
      | succ b => simp [fdSet, fdGet, ih a b]

theorem fdGet_fdClear (t : FdTable) (a b : Nat) :
    fdGet (fdClear t a) b = if b = a then none else fdGet t b := by
  induction t generalizing a b with
  | nil => simp [fdClear, fdGet]
  | cons x t ih =>
    cases a with
    | zero => cases b <;> simp [fdClear, fdGet]
    | succ a =>
      cases b with
      | zero => simp [fdClear, fdGet]
      | succ b => simp [fdClear, fdGet, ih a b]

theorem fdGet_lowestFree (t : FdTable) : fdGet t (lowestFree t) = none := by
  induction t with
  | nil => simp [lowestFree, fdGet]
  | cons x t ih =>
    cases x with
    | none => simp [lowestFree, fdGet]
    | some o => simp [lowestFree, fdGet, ih]

theorem redirect_fst (env : Env) (p : Proc) (inp : Bool) (path : String)
    (h : env.open_ok p.nopen = true) : (redirect env p inp (some path)).1 = 0 := by
  have hlow : ¬ ((lowestFree p.fds : Int) < 0) := by omega
  cases inp <;>
    simp [redirect, sys_open, sys_dup2, h, hlow, fdGet_fdSet, STDIN_FILENO, STDOUT_FILENO]

theorem redirect_ok (env : Env) (p : Proc) (inp : Bool) (path : String)
    (h : env.open_ok p.nopen = true) : ∃ q, redirect env p inp (some path) = (0, q) :=
  ⟨(redirect env p inp (some path)).2, Prod.ext (redirect_fst env p inp path h) rfl⟩

theorem take_drop_succ (tokens : Tokens) (i n : Nat) (hi : i < tokens.length) :
    (tokens.drop i).take (n + 1) = tokens[i] :: (tokens.drop (i + 1)).take n := by
  rw [List.drop_eq_getElem_cons hi, List.take_succ_cons]

/-- The loop of `handle_args`, when every `open` succeeds and the range lies
inside the token sequence: it runs to its end, having appended exactly the kept
tokens. -/
theorem handle_args_loop_spec (env : Env) (tokens : Tokens)
    (hopen : ∀ n, env.open_ok n = true) :
    ∀ (n i : Nat) (s : ArgScan), i + n ≤ tokens.length →
      ¬ (s.redirect_in = true ∧ s.redirect_out = true) →
      ∃ s1, handle_args_loop env tokens n i s = ScanResult.done 0 s1 ∧
        s1.args = s.args ++
          arg_writes s.index (kept_tokens (s.redirect_in || s.redirect_out)
            ((tokens.drop i).take n)) ∧
        s1.index = s.index +
          (kept_tokens (s.redirect_in || s.redirect_out) ((tokens.drop i).take n)).length ∧
        (s1.redirect_in || s1.redirect_out) =
          dangling (s.redirect_in || s.redirect_out) ((tokens.drop i).take n) := by
  intro n
  induction n with
  | zero =>
    intro i s _ _
    exact ⟨s, by simp [handle_args_loop, kept_tokens, arg_writes, dangling]⟩
  | succ n ih =>
    intro i s hin hx
    have hi : i < tokens.length := by omega
    have htok : tokens_get_token tokens i = some tokens[i] := by
      simp [tokens_get_token, hi]
    rw [take_drop_succ tokens i n hi]
    unfold handle_args_loop
    simp only [htok]
    obtain ⟨rin, rout, idx, args, proc⟩ := s
    cases rin with
    | true =>
      cases rout with
      | true => simp at hx
      | false =>
        obtain ⟨q, hq⟩ := redirect_ok env proc true tokens[i] (hopen _)
        obtain ⟨s1, h1, h2, h3, h4⟩ := ih (i + 1)
          { redirect_in := false, redirect_out := false, index := idx, args := args, proc := q }
          (by omega) (by simp)
        exact ⟨s1, by simp [hq, h1], by simpa [kept_tokens] using h2,
          by simpa [kept_tokens] using h3, by simpa [dangling] using h4⟩
    | false =>
      cases rout with
      | true =>
        obtain ⟨q, hq⟩ := redirect_ok env proc false tokens[i] (hopen _)
        obtain ⟨s1, h1, h2, h3, h4⟩ := ih (i + 1)
          { redirect_in := false, redirect_out := false, index := idx, args := args, proc := q }
          (by omega) (by simp)
        exact ⟨s1, by simp [hq, h1], by simpa [kept_tokens] using h2,
          by simpa [kept_tokens] using h3, by simpa [dangling] using h4⟩
      | false =>
        by_cases hin_op : tokens[i] = REDIRECTION_IN
        · obtain ⟨s1, h1, h2, h3, h4⟩ := ih (i + 1)
            { redirect_in := true, redirect_out := false, index := idx, args := args, proc := proc }
            (by omega) (by simp)
          exact ⟨s1, by simp [hin_op, h1],
            by simpa [kept_tokens, is_redirection, hin_op] using h2,
            by simpa [kept_tokens, is_redirection, hin_op] using h3,
            by simpa [dangling, is_redirection, hin_op] using h4⟩
        · by_cases hout_op : tokens[i] = REDIRECTION_OUT
          · obtain ⟨s1, h1, h2, h3, h4⟩ := ih (i + 1)
              { redirect_in := false, redirect_out := true, index := idx, args := args, proc := proc }
              (by omega) (by simp)
            have hne : ¬ (REDIRECTION_OUT = REDIRECTION_IN) := by decide
            exact ⟨s1, by simp [hne, hout_op, h1],
              by simpa [kept_tokens, is_redirection, hout_op] using h2,
              by simpa [kept_tokens, is_redirection, hout_op] using h3,
              by simpa [dangling, is_redirection, hout_op] using h4⟩
          · obtain ⟨s1, h1, h2, h3, h4⟩ := ih (i + 1)
              { redirect_in := false, redirect_out := false, index := idx + 1,
                args := args ++ [(idx, some tokens[i])], proc := proc }
              (by omega) (by simp)
            refine ⟨s1, by simp [hin_op, hout_op, h1], ?_, ?_, ?_⟩
            · simpa [kept_tokens, is_redirection, hin_op, hout_op, arg_writes] using h2
            · simp [kept_tokens, is_redirection, hin_op, hout_op] at h3 ⊢
              omega
            · simpa [dangling, is_redirection, hin_op, hout_op] using h4

theorem handle_args_loop_inv (env : Env) (tokens : Tokens) (program : CStr) :
    ∀ (n i : Nat) (s : ArgScan), args_inv program s →
      args_inv program (handle_args_loop env tokens n i s).scan := by
  intro n
  induction n with
  | zero => intro i s h; simpa [handle_args_loop, ScanResult.scan] using h
  | succ n ih =>
    intro i s h
    unfold handle_args_loop
    simp only
    split
    · split
      · simpa [ScanResult.scan, args_inv] using h
      · exact ih _ _ (by simpa [args_inv] using h)
    · split
      · split
        · simpa [ScanResult.scan, args_inv] using h
        · exact ih _ _ (by simpa [args_inv] using h)
      · split
        · simpa [ScanResult.scan] using h
        · rename_i tok _
          split
          · exact ih _ _ (by simpa [args_inv] using h)
          · split
            · exact ih _ _ (by simpa [args_inv] using h)
            · rename_i h1 h2
              apply ih
              obtain ⟨hidx, rest, hrest, hall⟩ := h
              refine ⟨by simp, rest ++ [(s.index, some tok)], by simp [hrest], ?_⟩
              intro w hw
              rcases List.mem_append.mp hw with hw | hw
              · exact hall w hw
              · simp at hw
                subst hw
                exact ⟨hidx, by simpa using h1, by simpa using h2⟩

theorem handle_args_inv (env : Env) (tokens : Tokens) (program : CStr) (start end_ : Nat)
    (rin rout : Bool) (p : Proc) :
    args_inv program (handle_args env tokens program start end_ rin rout p).scan := by
  have h0 : args_inv program
      { redirect_in := rin, redirect_out := rout, index := 1, args := [(0, program)], proc := p } :=
    ⟨by simp, [], rfl, by simp⟩
  have h := handle_args_loop_inv env tokens program (end_ - (start + 1)) (start + 1) _ h0
  unfold handle_args
  simp only
  split
  · rename_i s heq
    rw [heq] at h
    obtain ⟨hidx, rest, hrest, hall⟩ := h
    simp only [ScanResult.scan] at hidx hrest ⊢
    refine ⟨hidx, rest ++ [(s.index, none)], by simp [hrest], ?_⟩
    intro w hw
    rcases List.mem_append.mp hw with hw | hw
    · exact hall w hw
    · simp at hw
      subst hw
      exact ⟨hidx, by simp, by simp⟩
  · exact h

theorem same_logs_refl (p : Proc) : same_logs p p := rfl

theorem same_logs_trans {p q r : Proc} (h1 : same_logs p q) (h2 : same_logs q r) :
    same_logs p r := by
  unfold same_logs at *
  rw [h2, h1]

theorem same_logs_close (p : Proc) (fd : Int) : same_logs p (sys_close p fd) := by
  unfold sys_close same_logs
  split <;> rfl

theorem same_logs_dup2 (p : Proc) (a b : Int) : same_logs p (sys_dup2 p a b).2 := by
  unfold sys_dup2 same_logs
  split
  · rfl
  · split <;> rfl

theorem same_logs_open (env : Env) (p : Proc) (path : CStr) (inp : Bool) :
    same_logs p (sys_open env p path inp).2 := by
  unfold sys_open same_logs
  split
  · rfl
  · simp only
    split <;> rfl

theorem same_logs_redirect (env : Env) (p : Proc) (inp : Bool) (path : CStr) :
    same_logs p (redirect env p inp path).2 := by
  have h1 := same_logs_open env p path inp
  have h2 := fun b => same_logs_dup2 (sys_open env p path inp).2 (sys_open env p path inp).1 b
  have h3 := fun b => same_logs_trans h1 (same_logs_trans (h2 b) (same_logs_close _ (sys_open env p path inp).1))
  have h4 := same_logs_trans h1 (same_logs_close _ (sys_open env p path inp).1)
  unfold redirect
  simp only [apply_ite Prod.snd]
  repeat' split
  all_goals first | exact h1 | exact h4 | exact h3 _

theorem same_logs_loop (env : Env) (tokens : Tokens) :
    ∀ (n i : Nat) (s : ArgScan),
      same_logs s.proc (handle_args_loop env tokens n i s).scan.proc := by
  intro n
  induction n with
  | zero => intro i s; exact same_logs_refl _
  | succ n ih =>
    intro i s
    unfold handle_args_loop
    simp only
    split
    · have h := same_logs_redirect env s.proc true (tokens_get_token tokens i)
      split
      · exact h
      · exact same_logs_trans h (ih _ _)
    · split
      · have h := same_logs_redirect env s.proc false (tokens_get_token tokens i)
        split
        · exact h
        · exact same_logs_trans h (ih _ _)
      · split
        · exact same_logs_refl _
        · split
          · exact ih _ _
          · split
            · exact ih _ _
            · exact ih _ _

theorem same_logs_handle_args (env : Env) (tokens : Tokens) (program : CStr) (start end_ : Nat)
    (rin rout : Bool) (p : Proc) :
    same_logs p (handle_args env tokens program start end_ rin rout p).scan.proc := by
  have h := same_logs_loop env tokens (end_ - (start + 1)) (start + 1)
    { redirect_in := rin, redirect_out := rout, index := 1, args := [(0, program)], proc := p }
  unfold handle_args
  simp only
  split
  · rename_i s heq
    rw [heq] at h
    exact h
  · exact h

theorem same_logs_execvs {p q : Proc} (h : same_logs p q) : q.execvs = p.execvs := by
  unfold same_logs at h; rw [h]

theorem same_logs_wired {p q : Proc} (h : same_logs p q) : q.wired = p.wired := by
  unfold same_logs at h; rw [h]

theorem same_logs_calls {p q : Proc} (h : same_logs p q) : q.calls = p.calls := by
  unfold same_logs at h; rw [h]

theorem same_logs_pipe_fds {p q : Proc} (h : same_logs p q) : q.pipe_fds = p.pipe_fds := by
  unfold same_logs at h; rw [h]

theorem same_logs_child_wire (tokens : Tokens) (start end_ : Nat) (pipes : Int → Int × Int)
    (n_proc : Int) (p : Proc) :
    same_logs p (child_wire tokens start end_ pipes n_proc p).2 := by
  have hc := fun q fd => same_logs_close q fd
  have hd := fun q a b => same_logs_dup2 q a b
  have h3 : ∀ q a b c d, same_logs q (sys_close (sys_dup2 (sys_close q a) b c).2 d) :=
    fun q a b c d => same_logs_trans (hc q a) (same_logs_trans (hd _ b c) (hc _ d))
  unfold child_wire
  simp only
  split
  · split
    · split
      · exact same_logs_trans (h3 _ _ _ _ _) (h3 _ _ _ _ _)
      · exact h3 _ _ _ _ _
    · split
      · exact h3 _ _ _ _ _
      · exact same_logs_refl _
  · exact same_logs_refl _

/-- The `execv` calls of one `exec_program` call: none, or a single one whose
program is the resolved program and whose `args` is what `handle_args` built. -/
theorem exec_program_execvs (env : Env) (tokens : Tokens) (start end_ : Nat)
    (pipes : Int → Int × Int) (n_proc : Int) (p : Proc) :
    (exec_program env tokens start end_ pipes n_proc p).proc.execvs = p.execvs ∨
    ∃ name q, tokens_get_token tokens start = some name ∧
      (exec_program env tokens start end_ pipes n_proc p).proc.execvs = p.execvs ++
        [(some (resolve_program env name),
          (handle_args env tokens (some (resolve_program env name)) start end_
            env.redirect_in0 env.redirect_out0 q).scan.args)] := by
  unfold exec_program
  simp only [sys_fork]
  split
  · left; rfl
  · split
    · have hw := same_logs_child_wire tokens start end_ pipes n_proc
        { p with calls := p.calls ++ [(start, end_, n_proc)], nfork := p.nfork + 1 }
      generalize child_wire tokens start end_ pipes n_proc
        { p with calls := p.calls ++ [(start, end_, n_proc)], nfork := p.nfork + 1 } = cw at hw
      obtain ⟨touched, q⟩ := cw
      simp only at hw ⊢
      have hq : (observe_wiring touched q).execvs = p.execvs := by
        have := same_logs_execvs hw
        simpa [observe_wiring] using this
      split
      · left; exact hq
      · rename_i name hname
        have hh := same_logs_handle_args env tokens (some (resolve_program env name)) start end_
          env.redirect_in0 env.redirect_out0 (observe_wiring touched q)
        split
        · rename_i s heq
          rw [heq] at hh
          left
          exact (same_logs_execvs hh).trans hq
        · rename_i ret s heq
          rw [heq] at hh
          have hs : s.proc.execvs = p.execvs := (same_logs_execvs hh).trans hq
          split
          · left; simpa [Run.proc] using hs
          · right
            refine ⟨name, observe_wiring touched q, hname, ?_⟩
            rw [heq]
            split <;> simp [Run.proc, hs, ScanResult.scan]
    · left
      simp only [Run.proc]
      split
      · refine Eq.trans (same_logs_execvs
          (same_logs_trans (same_logs_close _ _) (same_logs_close _ _))) ?_
        rfl
      · rfl

/-- The result of `handle_args` on a range inside the token sequence, scanned
from unarmed mode with every `open` succeeding. -/
theorem handle_args_scan_result (env : Env) (tokens : Tokens) (program : CStr)
    (start end_ : Nat) (p : Proc)
    (hse : start < end_) (hend : end_ ≤ tokens.length) (hopen : ∀ n, env.open_ok n = true) :
    ∃ s, handle_args env tokens program start end_ false false p = ScanResult.done 0 s ∧
      s.args = [(0, program)] ++
        arg_writes 1 (kept_tokens false (stage_rest tokens start end_)) ++
        [((kept_tokens false (stage_rest tokens start end_)).length + 1, none)] ∧
      (s.redirect_in || s.redirect_out) = dangling false (stage_rest tokens start end_) := by
  obtain ⟨s1, h1, h2, h3, h4⟩ := handle_args_loop_spec env tokens hopen (end_ - (start + 1))
    (start + 1)
    { redirect_in := false, redirect_out := false, index := 1, args := [(0, program)], proc := p }
    (by omega) (by simp)
  refine ⟨{ s1 with args := s1.args ++ [(s1.index, none)] }, ?_, ?_, ?_⟩
  · simp [handle_args, h1]
  · simp only [Bool.or_self] at h2 h3
    simp [h2, h3, stage_rest, Nat.add_comm]
  · simpa [stage_rest] using h4

/-- In the child, for a stage inside the token sequence scanned from unarmed
mode with every `open` succeeding, `exec_program` calls `execv` once, with the
resolved program and the vector of the kept tokens. -/
theorem exec_program_child_execv (env : Env) (tokens : Tokens) (start end_ : Nat)
    (pipes : Int → Int × Int) (n_proc : Int) (p : Proc) (name : String)
    (hfork : env.fork_ret p.nfork = 0) (hname : tokens_get_token tokens start = some name)
    (hse : start < end_) (hend : end_ ≤ tokens.length) (hopen : ∀ n, env.open_ok n = true)
    (hin0 : env.redirect_in0 = false) (hout0 : env.redirect_out0 = false) :
    (exec_program env tokens start end_ pipes n_proc p).proc.execvs = p.execvs ++
      [(some (resolve_program env name),
        [(0, some (resolve_program env name))] ++
          arg_writes 1 (kept_tokens false (stage_rest tokens start end_)) ++
          [((kept_tokens false (stage_rest tokens start end_)).length + 1, none)])] := by
  unfold exec_program
  simp only [sys_fork, hfork, lt_self_iff_false, if_false, if_true, hname, hin0, hout0]
  have hw := same_logs_child_wire tokens start end_ pipes n_proc
    { p with calls := p.calls ++ [(start, end_, n_proc)], nfork := p.nfork + 1 }
  generalize child_wire tokens start end_ pipes n_proc
    { p with calls := p.calls ++ [(start, end_, n_proc)], nfork := p.nfork + 1 } = cw at hw
  obtain ⟨touched, q⟩ := cw
  simp only at hw ⊢
  have hq : (observe_wiring touched q).execvs = p.execvs := by
    have := same_logs_execvs hw
    simpa [observe_wiring] using this
  obtain ⟨s, hs, hargs, -⟩ := handle_args_scan_result env tokens
    (some (resolve_program env name)) start end_ (observe_wiring touched q) hse hend hopen
  have hh := same_logs_handle_args env tokens (some (resolve_program env name)) start end_
    false false (observe_wiring touched q)
  rw [hs] at hh
  have hsx : s.proc.execvs = p.execvs := (same_logs_execvs hh).trans hq
  rw [hs]
  have hne : ¬ ((0 : Int) = 1) := by decide
  simp only [hne, if_false]
  split <;> simp [Run.proc, hsx, hargs]

theorem same_logs_npipe {p q : Proc} (h : same_logs p q) : q.npipe = p.npipe := by
  unfold same_logs at h; rw [h]

theorem same_logs_nfork {p q : Proc} (h : same_logs p q) : q.nfork = p.nfork := by
  unfold same_logs at h; rw [h]

/-- What one call of `exec_program` does to the logs, whatever `fork` returns: one
more call, one more fork, at most one wiring observation and one `execv`. -/
theorem exec_program_frame (env : Env) (tokens : Tokens) (start end_ : Nat)
    (pipes : Int → Int × Int) (n_proc : Int) (p : Proc) :
    ∃ obs extra, same_logs (with_logs p (start, end_, n_proc) obs extra)
      (exec_program env tokens start end_ pipes n_proc p).proc := by
  unfold exec_program
  simp only [sys_fork]
  split
  · exact ⟨[], [], by simp [Run.proc, same_logs, with_logs]⟩
  · split
    · have hw := same_logs_child_wire tokens start end_ pipes n_proc
        { p with calls := p.calls ++ [(start, end_, n_proc)], nfork := p.nfork + 1 }
      generalize child_wire tokens start end_ pipes n_proc
        { p with calls := p.calls ++ [(start, end_, n_proc)], nfork := p.nfork + 1 } = cw at hw
      obtain ⟨touched, q⟩ := cw
      simp only at hw ⊢
      have hq : same_logs
          (with_logs p (start, end_, n_proc)
            [{ touched := touched, pipe_fds := q.pipe_fds, fds := q.fds }] [])
          (observe_wiring touched q) := by
        unfold same_logs at hw ⊢
        unfold observe_wiring with_logs
        rw [hw]
        simp
      split
      · exact ⟨_, [], by simpa [Run.proc] using hq⟩
      · rename_i name hname
        have hh := same_logs_handle_args env tokens (some (resolve_program env name)) start end_
          env.redirect_in0 env.redirect_out0 (observe_wiring touched q)
        have hh2 := same_logs_trans hq hh
        split
        · rename_i s heq
          rw [heq] at hh2
          exact ⟨_, [], by simpa [Run.proc, ScanResult.scan] using hh2⟩
        · rename_i ret s heq
          rw [heq] at hh2
          simp only [ScanResult.scan] at hh2
          split
          · exact ⟨_, [], by simpa [Run.proc] using hh2⟩
          · refine ⟨[{ touched := touched, pipe_fds := q.pipe_fds, fds := q.fds }],
              [(some (resolve_program env name), s.args)], ?_⟩
            have h3 : same_logs
                (with_logs p (start, end_, n_proc)
                  [{ touched := touched, pipe_fds := q.pipe_fds, fds := q.fds }]
                  [(some (resolve_program env name), s.args)])
                { s.proc with
                  execvs := s.proc.execvs ++ [(some (resolve_program env name), s.args)] } := by
              unfold same_logs at hh2 ⊢
              unfold with_logs at hh2 ⊢
              rw [hh2]
              simp
            split <;> simpa [Run.proc] using h3
    · refine ⟨[], [], ?_⟩
      simp only [Run.proc]
      split
      · refine same_logs_trans ?_ (same_logs_trans (same_logs_close _ _) (same_logs_close _ _))
        simp [same_logs, with_logs]
      · simp [same_logs, with_logs]

/-- In a process where `fork` returns non-zero, `exec_program` returns 0. -/
theorem exec_program_returns (env : Env) (tokens : Tokens) (start end_ : Nat)
    (pipes : Int → Int × Int) (n_proc : Int) (p : Proc) (h : env.fork_ret p.nfork ≠ 0) :
    ∃ q, exec_program env tokens start end_ pipes n_proc p = Run.ret 0 q := by
  unfold exec_program
  simp only [sys_fork, h, if_false]
  split <;> exact ⟨_, rfl⟩

theorem positions_in_zero (tokens : Tokens) (idx : Nat) : positions_in tokens idx 0 = [] := rfl

theorem positions_in_succ_pipe (tokens : Tokens) (idx n : Nat)
    (h : tokens_get_token tokens idx = some PIPE) :
    positions_in tokens idx (n + 1) = idx :: positions_in tokens (idx + 1) n := by
  simp [positions_in, List.range'_succ, List.filter_cons, h]

theorem positions_in_succ_other (tokens : Tokens) (idx n : Nat)
    (h : tokens_get_token tokens idx ≠ some PIPE) :
    positions_in tokens idx (n + 1) = positions_in tokens (idx + 1) n := by
  simp [positions_in, List.range'_succ, List.filter_cons, h]

theorem pipe_positions_eq (tokens : Tokens) :
    pipe_positions tokens = positions_in tokens 0 tokens.length := by
  simp [pipe_positions, positions_in, List.range_eq_range']

theorem sys_pipe_logs (env : Env) (pipes : Int → Int × Int) (slot : Int) (p : Proc) :
    (sys_pipe env pipes slot p).2.2.calls = p.calls ∧
    (sys_pipe env pipes slot p).2.2.npipe = p.npipe + 1 ∧
    (sys_pipe env pipes slot p).2.2.nfork = p.nfork ∧
    (sys_pipe env pipes slot p).2.2.wired = p.wired ∧
    (sys_pipe env pipes slot p).2.2.execvs = p.execvs := by
  unfold sys_pipe
  simp only
  split <;> simp

/-- The loop of `main` in a process where `fork` never returns 0: it runs to its
end, calling `exec_program` and `pipe` once per `|` token. -/
theorem main_loop_parent (env : Env) (tokens : Tokens) (hpar : ∀ n, env.fork_ret n ≠ 0) :
    ∀ (n idx : Nat) (s : LineState) (p : Proc), idx + n ≤ tokens.length →
      ∃ s1 p1, main_loop env tokens n idx s p = Run.ret s1 p1 ∧
        p1.calls = p.calls ++ loop_calls s.start s.n_proc (positions_in tokens idx n) ∧
        s1.start = final_start s.start (positions_in tokens idx n) ∧
        s1.n_proc = s.n_proc + ((positions_in tokens idx n).length : Int) ∧
        p1.npipe = p.npipe + (positions_in tokens idx n).length := by
  intro n
  induction n with
  | zero =>
    intro idx s p _
    exact ⟨s, p, by simp [main_loop, positions_in_zero, loop_calls, final_start]⟩
  | succ n ih =>
    intro idx s p hlen
    have hi : idx < tokens.length := by omega
    have htok : tokens_get_token tokens idx = some tokens[idx] := by
      simp [tokens_get_token, hi]
    unfold main_loop
    simp only [htok]
    by_cases hp : tokens[idx] = PIPE
    · have hpos := positions_in_succ_pipe tokens idx n (by rw [htok, hp])
      obtain ⟨h1, h2, h3, -, -⟩ := sys_pipe_logs env s.pipes s.n_proc p
      generalize sys_pipe env s.pipes s.n_proc p = sp at h1 h2 h3
      obtain ⟨r, pipes1, p1⟩ := sp
      simp only at h1 h2 h3
      simp only [hp, if_true]
      obtain ⟨q, hq⟩ := exec_program_returns env tokens s.start idx pipes1 s.n_proc p1 (hpar _)
      obtain ⟨obs, extra, hf⟩ := exec_program_frame env tokens s.start idx pipes1 s.n_proc p1
      rw [hq] at hf ⊢
      simp only [Run.proc] at hf
      have hc : q.calls = p.calls ++ [(s.start, idx, s.n_proc)] := by
        rw [same_logs_calls hf]; simp [with_logs, h1]
      have hn : q.npipe = p.npipe + 1 := by
        rw [same_logs_npipe hf]; simp [with_logs, h2]
      obtain ⟨s1, p2, e1, e2, e3, e4, e5⟩ := ih (idx + 1)
        { n_proc := s.n_proc + 1, start := idx + 1, pipes := pipes1 } q (by omega)
      refine ⟨s1, p2, e1, ?_, ?_, ?_, ?_⟩
      · rw [e2, hc, hpos]; simp [loop_calls]
      · rw [e3, hpos]; simp [final_start]
      · rw [e4, hpos]; simp; omega
      · rw [e5, hn, hpos]; simp; omega
    · have hpos := positions_in_succ_other tokens idx n (by rw [htok]; simpa using hp)
      simp only [hp, if_false]
      rw [hpos]
      exact ih (idx + 1) s p (by omega)

theorem stage_ranges_eq_loop_calls (start : Nat) (m : Int) (qs : List Nat) (len : Nat) :
    stage_ranges start qs len =
      (loop_calls start m qs).map (fun c => (c.1, c.2.1)) ++ [(final_start start qs, len)] := by
  induction qs generalizing start m with
  | nil => simp [stage_ranges, loop_calls, final_start]
  | cons q qs ih => simp [stage_ranges, loop_calls, final_start, ih (q + 1) (m + 1)]

theorem stage_ranges_length (start : Nat) (qs : List Nat) (len : Nat) :
    (stage_ranges start qs len).length = qs.length + 1 := by
  induction qs generalizing start with
  | nil => simp [stage_ranges]
  | cons q qs ih => simp [stage_ranges, ih]

theorem token_cases (tokens : Tokens) (idx : Nat) :
    tokens_get_token tokens idx = some PIPE ∨ tokens_get_token tokens idx ≠ some PIPE :=
  em _

theorem stage_ranges_no_pipe (tokens : Tokens) :
    ∀ (n idx start : Nat),
      (∀ j, start ≤ j → j < idx → tokens_get_token tokens j ≠ some PIPE) →
      ∀ se ∈ stage_ranges start (positions_in tokens idx n) (idx + n),
        ∀ j, se.1 ≤ j → j < se.2 → tokens_get_token tokens j ≠ some PIPE := by
  intro n
  induction n with
  | zero =>
    intro idx start hgap se hse j h1 h2
    simp [positions_in_zero, stage_ranges] at hse
    subst hse
    exact hgap j h1 h2
  | succ n ih =>
    intro idx start hgap se hse j h1 h2
    rcases token_cases tokens idx with hp | hp
    · rw [positions_in_succ_pipe tokens idx n hp] at hse
      simp only [stage_ranges, List.mem_cons] at hse
      rcases hse with hse | hse
      · subst hse
        exact hgap j h1 h2
      · have e : idx + (n + 1) = (idx + 1) + n := by omega
        rw [e] at hse
        exact ih (idx + 1) (idx + 1) (fun j a b => by omega) se hse j h1 h2
    · rw [positions_in_succ_other tokens idx n hp] at hse
      have e : idx + (n + 1) = (idx + 1) + n := by omega
      rw [e] at hse
      refine ih (idx + 1) start ?_ se hse j h1 h2
      intro j a b
      by_cases hj : j = idx
      · subst hj; exact hp
      · exact hgap j a (by omega)

theorem stage_ranges_starts (tokens : Tokens) (len : Nat) :
    ∀ (n idx start : Nat), start ≤ idx →
      ∀ se ∈ stage_ranges start (positions_in tokens idx n) len, start ≤ se.1 := by
  intro n
  induction n with
  | zero =>
    intro idx start _ se hse
    simp [positions_in_zero, stage_ranges] at hse
    subst hse
    exact le_refl _
  | succ n ih =>
    intro idx start hle se hse
    rcases token_cases tokens idx with hp | hp
    · rw [positions_in_succ_pipe tokens idx n hp] at hse
      simp only [stage_ranges, List.mem_cons] at hse
      rcases hse with hse | hse
      · subst hse; exact le_refl _
      · have := ih (idx + 1) (idx + 1) (le_refl _) se hse
        omega
    · rw [positions_in_succ_other tokens idx n hp] at hse
      exact ih (idx + 1) start (by omega) se hse

theorem stage_ranges_count (tokens : Tokens) :
    ∀ (n idx start : Nat) (j : Nat), start ≤ idx → start ≤ j → j < idx + n →
      (idx ≤ j → tokens_get_token tokens j ≠ some PIPE) →
      (stage_ranges start (positions_in tokens idx n) (idx + n)).countP
        (fun se => decide (se.1 ≤ j ∧ j < se.2)) = 1 := by
  intro n
  induction n with
  | zero =>
    intro idx start j _ h1 h2 _
    simp [positions_in_zero, stage_ranges, List.countP_cons, h1]
    omega
  | succ n ih =>
    intro idx start j hle h1 h2 h3
    have e : idx + (n + 1) = (idx + 1) + n := by omega
    rcases token_cases tokens idx with hp | hp
    · rw [positions_in_succ_pipe tokens idx n hp, e]
      simp only [stage_ranges, List.countP_cons]
      by_cases hj : j < idx
      · have hz : (stage_ranges (idx + 1) (positions_in tokens (idx + 1) n) (idx + 1 + n)).countP
            (fun se => decide (se.1 ≤ j ∧ j < se.2)) = 0 := by
          rw [List.countP_eq_zero]
          intro se hse
          have := stage_ranges_starts tokens (idx + 1 + n) n (idx + 1) (idx + 1) (le_refl _) se hse
          simp
          omega
        rw [hz]
        simp [h1, hj]
      · have hne : j ≠ idx := by
          intro h; subst h; exact h3 (le_refl _) hp
        rw [ih (idx + 1) (idx + 1) j (le_refl _) (by omega) (by omega) (fun h => h3 (by omega))]
        simp
        omega
    · rw [positions_in_succ_other tokens idx n hp, e]
      refine ih (idx + 1) start j (by omega) h1 (by omega) ?_
      intro h
      exact h3 (by omega)

/-- One line in a process where `fork` never returns 0 and the first token is no
built-in: the line is processed to its end, with one `exec_program` call per
stage range and one `pipe` call per `|` token. -/
theorem main_line_parent (env : Env) (tokens : Tokens) (p : Proc)
    (hnb : lookup (tokens_get_token tokens 0) < 0) (hpar : ∀ n, env.fork_ret n ≠ 0) :
    ∃ q, main_line env tokens p = Run.ret () q ∧
      q.calls = p.calls ++ loop_calls 0 0 (pipe_positions tokens) ++
        [(final_start 0 (pipe_positions tokens), tokens.length,
          if (pipe_positions tokens).length = 0 then -1
          else ((pipe_positions tokens).length : Int))] ∧
      q.npipe = p.npipe + (pipe_positions tokens).length := by
  obtain ⟨s1, p1, e1, e2, e3, e4, e5⟩ := main_loop_parent env tokens hpar tokens.length 0
    { n_proc := 0, start := 0, pipes := env.pipes0 } p (by omega)
  rw [← pipe_positions_eq] at e2 e3 e4 e5
  simp only [zero_add] at e4
  unfold main_line
  simp only [not_le.mpr hnb, if_false, tokens_get_length, e1, last_stage]
  by_cases hk : (pipe_positions tokens).length = 0
  · have hn : s1.n_proc = 0 := by rw [e4, hk]; rfl
    simp only [hn, if_true, hk]
    obtain ⟨q, hq⟩ := exec_program_returns env tokens s1.start tokens.length s1.pipes (-1) p1
      (hpar _)
    obtain ⟨obs, extra, hf⟩ := exec_program_frame env tokens s1.start tokens.length s1.pipes
      (-1) p1
    rw [hq] at hf ⊢
    simp only [Run.proc] at hf
    refine ⟨q, rfl, ?_, ?_⟩
    · rw [same_logs_calls hf]; simp [with_logs, e2, e3]
    · rw [same_logs_npipe hf]; simp [with_logs, e5, hk]
  · have hn : ¬ (s1.n_proc = 0) := by rw [e4]; omega
    simp only [hn, if_false, hk]
    obtain ⟨q, hq⟩ := exec_program_returns env tokens s1.start tokens.length s1.pipes
      s1.n_proc p1 (hpar _)
    obtain ⟨obs, extra, hf⟩ := exec_program_frame env tokens s1.start tokens.length s1.pipes
      s1.n_proc p1
    rw [hq] at hf ⊢
    simp only [Run.proc] at hf
    refine ⟨q, rfl, ?_, ?_⟩
    · rw [same_logs_calls hf]; simp [with_logs, e2, e3, e4]
    · rw [same_logs_npipe hf]; simp [with_logs, e5]

theorem fds_close (p : Proc) (a fd : Nat) :
    fdGet (sys_close p (a : Int)).fds fd = if fd = a then none else fdGet p.fds fd := by
  have ha : ¬ ((a : Int) < 0) := by omega
  simp [sys_close, fdGet_fdClear, ha]

theorem junction_open_free {g0 : Nat → Option FileObj} {m start : Nat}
    {pipes : Int → Int × Int} {tab : Nat → Option FileObj}
    (h : junction_open g0 m start pipes tab) (a : Nat) (ha : tab a = none) : g0 a = none := by
  rcases h with ⟨-, -, h⟩ | ⟨r, w, -, -, -, -, -, -, h⟩
  · rw [← h]; exact ha
  · rw [h] at ha
    unfold overlay at ha
    split at ha
    · cases ha
    · split at ha
      · cases ha
      · exact ha

theorem sys_pipe_pre_fork (env : Env) (g0 : Nat → Option FileObj) (m : Nat) (s : LineState)
    (p : Proc) (hinv : loop_inv g0 m s p) (hok : env.pipe_ok m = true) :
    pre_fork g0 m s.start (sys_pipe env s.pipes s.n_proc p).2.1
      (sys_pipe env s.pipes s.n_proc p).2.2 := by
  obtain ⟨hn, hf, hp, hw, ⟨hlen, hfree⟩, hj⟩ := hinv
  subst hp
  have hok2 : env.pipe_ok p.npipe = true := hok
  have hr : fdGet p.fds (lowestFree p.fds) = none := fdGet_lowestFree _
  have hw2 := fdGet_lowestFree (fdSet p.fds (lowestFree p.fds) (some (FileObj.pipeRead p.npipe)))
  rw [fdGet_fdSet] at hw2
  split at hw2
  · cases hw2
  · rename_i hne
    simp only [sys_pipe, hok2, if_true]
    refine ⟨hf, rfl, hw, ?_, lowestFree p.fds, _, fdGet p.fds, ?_, fun h => hne h.symm,
      hr, hw2, ?_, ?_⟩
    · refine ⟨by simp [hlen], ?_⟩
      intro ab hab
      simp only [List.mem_append, List.mem_singleton] at hab
      rcases hab with hab | hab
      · exact hfree ab hab
      · subst hab
        exact ⟨junction_open_free hj _ hr, junction_open_free hj _ hw2⟩
    · rw [hn]
      exact Function.update_same _ _ _
    · rcases hj with ⟨h1, h2, h3⟩ | ⟨r, w, h1, h2, h3, h4⟩
      · exact Or.inl ⟨h1, h2, h3⟩
      · refine Or.inr ⟨r, w, h1, h2, ?_, h4⟩
        rw [hn, Function.update_noteq (by omega)]
        exact h3
    · intro fd
      simp only [fdGet_fdSet, overlay]
      split
      · rename_i h
        rw [if_neg (by rw [h]; exact hne)]
      · rfl

/-- In the shell, when `fork` succeeds for stage `m`, `exec_program` closes both
ends of junction `m - 1` and returns, which re-establishes the loop invariant. -/
theorem exec_program_parent_step (env : Env) (tokens : Tokens) (g0 : Nat → Option FileObj)
    (m start idx : Nat) (pipes : Int → Int × Int) (p : Proc)
    (hpre : pre_fork g0 m start pipes p) (hfork : 0 < env.fork_ret m) :
    ∃ q, exec_program env tokens start idx pipes (m : Int) p = Run.ret 0 q ∧
      loop_inv g0 (m + 1) { n_proc := (m : Int) + 1, start := idx + 1, pipes := pipes } q := by
  obtain ⟨hf, hp, hw, hfree, r1, w1, tab, hpipes, hne, hr1, hw1, hj, htab⟩ := hpre
  have h1 : ¬ (env.fork_ret p.nfork < 0) := by rw [hf]; omega
  have h2 : ¬ (env.fork_ret p.nfork = 0) := by rw [hf]; omega
  have h3 : ((m : Int) ≠ -1) := by omega
  unfold exec_program
  simp only [sys_fork, h1, h2, if_false]
  refine ⟨_, rfl, ?_⟩
  rcases hj with ⟨hm, hs, hg⟩ | ⟨r, w, hm, hs, hpr, hrw, hgr, hgw, hg⟩
  · subst hm
    subst hs
    simp only [ne_eq, not_true_eq_false, and_false, if_false]
    refine ⟨by simp, by simp [hf], by simp [hp], hw, hfree, Or.inr ⟨r1, w1, by simp, by simp,
      ?_, hne, ?_, ?_, ?_⟩⟩
    · simpa using hpipes
    · rw [← hg]; exact hr1
    · rw [← hg]; exact hw1
    · intro fd
      simp only [htab, overlay, hg]
  · have hcond : ((m : Int) ≠ -1 ∧ start ≠ 0) := ⟨h3, hs⟩
    rw [if_pos hcond, hpr]
    have hclose : ∀ (q : Proc), (sys_close (sys_close q (r : Int)) (w : Int)).nfork = q.nfork ∧
        (sys_close (sys_close q (r : Int)) (w : Int)).npipe = q.npipe ∧
        (sys_close (sys_close q (r : Int)) (w : Int)).wired = q.wired ∧
        (sys_close (sys_close q (r : Int)) (w : Int)).pipe_fds = q.pipe_fds := by
      intro q
      have h := same_logs_trans (same_logs_close q (r : Int)) (same_logs_close _ (w : Int))
      exact ⟨same_logs_nfork h, same_logs_npipe h, same_logs_wired h, same_logs_pipe_fds h⟩
    obtain ⟨c1, c2, c3, c4⟩ := hclose
      { p with calls := p.calls ++ [(start, idx, (m : Int))], nfork := p.nfork + 1 }
    have hr1x : r1 ≠ r ∧ r1 ≠ w ∧ g0 r1 = none := by
      have := hr1
      rw [hg] at this
      unfold overlay at this
      split at this
      · cases this
      · split at this
        · cases this
        · exact ⟨by assumption, by assumption, this⟩
    have hw1x : w1 ≠ r ∧ w1 ≠ w ∧ g0 w1 = none := by
      have := hw1
      rw [hg] at this
      unfold overlay at this
      split at this
      · cases this
      · split at this
        · cases this
        · exact ⟨by assumption, by assumption, this⟩
    refine ⟨by simp, c1.trans (by simp [hf]), c2.trans (by simp [hp]), c3.trans hw,
      ⟨by rw [c4]; exact hfree.1, fun ab hab => hfree.2 ab (by rw [← c4]; exact hab)⟩,
      Or.inr ⟨r1, w1, by simp, by simp, ?_, hne, hr1x.2.2, hw1x.2.2, ?_⟩⟩
    · simpa using hpipes
    · intro fd
      show fdGet (sys_close (sys_close _ (r : Int)) (w : Int)).fds fd = _
      rw [fds_close, fds_close]
      simp only [htab, overlay, hg, Nat.add_sub_cancel]
      by_cases e1 : fd = w
      · subst e1
        simp [Ne.symm hr1x.2.1, Ne.symm hw1x.2.1, hgw]
      · by_cases e2 : fd = r
        · subst e2
          simp [Ne.symm hr1x.1, Ne.symm hw1x.1, hgr, e1]
        · simp [e1, e2]

theorem fds_dup2_get (p : Proc) (a : Nat) (b : Int) (hb : 0 ≤ b) (fd : Nat) :
    fdGet (sys_dup2 p (a : Int) b).2.fds fd =
      match fdGet p.fds a with
      | none => fdGet p.fds fd
      | some o => if fd = b.toNat then some o else fdGet p.fds fd := by
  have ha : ¬ ((a : Int) < 0) := by omega
  have hb2 : ¬ (b < 0) := by omega
  unfold sys_dup2
  simp only [ha, hb2, or_self, if_false, Int.toNat_ofNat]
  cases fdGet p.fds a <;> simp [fdGet_fdSet]

theorem fds_dup2_stdout (p : Proc) (a fd : Nat) :
    fdGet (sys_dup2 p (a : Int) STDOUT_FILENO).2.fds fd =
      match fdGet p.fds a with
      | none => fdGet p.fds fd
      | some o => if fd = 1 then some o else fdGet p.fds fd :=
  fds_dup2_get p a 1 (by decide) fd

theorem fds_dup2_stdin (p : Proc) (a fd : Nat) :
    fdGet (sys_dup2 p (a : Int) STDIN_FILENO).2.fds fd =
      match fdGet p.fds a with
      | none => fdGet p.fds fd
      | some o => if fd = 0 then some o else fdGet p.fds fd :=
  fds_dup2_get p a 0 (by decide) fd

/-- The wiring of the child of a stage `m` that is not the last one, forked in
the state `pre_fork`. -/
theorem child_wire_inner (tokens : Tokens) (g0 : Nat → Option FileObj) (m start end_ : Nat)
    (pipes : Int → Int × Int) (q : Proc) (r1 w1 : Nat) (tab : Nat → Option FileObj)
    (hpipes : pipes (m : Int) = ((r1 : Int), (w1 : Int))) (hne : r1 ≠ w1)
    (hr1 : tab r1 = none) (hw1 : tab w1 = none)
    (hj : junction_open g0 m start pipes tab)
    (htab : ∀ fd, fdGet q.fds fd = overlay tab m r1 w1 fd)
    (hend : end_ ≠ tokens_get_length tokens) (h0 : g0 0 ≠ none) (h1 : g0 1 ≠ none) :
    (∀ x ∈ (child_wire tokens start end_ pipes (m : Int) q).1,
      x = (m : Int) ∨ (1 ≤ m ∧ x = (m : Int) - 1)) ∧
    fdGet (child_wire tokens start end_ pipes (m : Int) q).2.fds 1 =
      some (FileObj.pipeWrite m) ∧
    fdGet (child_wire tokens start end_ pipes (m : Int) q).2.fds 0 =
      (if m = 0 then g0 0 else some (FileObj.pipeRead (m - 1))) ∧
    (∀ fd, fd ≠ 0 → fd ≠ 1 →
      fdGet (child_wire tokens start end_ pipes (m : Int) q).2.fds fd = none ∨
      fdGet (child_wire tokens start end_ pipes (m : Int) q).2.fds fd = g0 fd) := by
  have h3 : ((m : Int) ≠ -1) := by omega
  have gr1 : g0 r1 = none := junction_open_free hj _ hr1
  have gw1 : g0 w1 = none := junction_open_free hj _ hw1
  have r1_0 : r1 ≠ 0 := fun h => h0 (h ▸ gr1)
  have r1_1 : r1 ≠ 1 := fun h => h1 (h ▸ gr1)
  have w1_0 : w1 ≠ 0 := fun h => h0 (h ▸ gw1)
  have w1_1 : w1 ≠ 1 := fun h => h1 (h ▸ gw1)
  unfold child_wire
  rw [if_pos h3, if_pos hend, hpipes]
  simp only
  rcases hj with ⟨hm, hs, hg⟩ | ⟨r, w, hm, hs, hpr, hrw, hgr, hgw, hg⟩
  · subst hm
    subst hs
    simp only [ne_eq, not_true_eq_false, if_false]
    have T : ∀ fd, fdGet (sys_close (sys_dup2 (sys_close q (r1 : Int)) (w1 : Int)
        STDOUT_FILENO).2 (w1 : Int)).fds fd =
        if fd = w1 then none else if fd = 1 then some (FileObj.pipeWrite 0)
        else if fd = r1 then none else g0 fd := by
      intro fd
      simp only [fds_close, fds_dup2_stdout, htab, overlay, hg]
      simp only [hne, Ne.symm hne, if_false, if_true]
      split_ifs <;> rfl
    refine ⟨by simp, ?_, ?_, ?_⟩
    · rw [T]; simp [Ne.symm w1_1]
    · rw [T]; simp [Ne.symm w1_0, Ne.symm r1_0]
    · intro fd hfd0 hfd1
      rw [T]
      by_cases e1 : fd = w1
      · simp [e1]
      · by_cases e2 : fd = r1
        · simp [e1, e2, hfd1, Ne.symm hne, r1_1]
        · simp [e1, e2, hfd1]
  · have r1x : r1 ≠ r ∧ r1 ≠ w := by
      have := hr1
      rw [hg] at this
      unfold overlay at this
      split at this
      · cases this
      · split at this
        · cases this
        · exact ⟨by assumption, by assumption⟩
    have w1x : w1 ≠ r ∧ w1 ≠ w := by
      have := hw1
      rw [hg] at this
      unfold overlay at this
      split at this
      · cases this
      · split at this
        · cases this
        · exact ⟨by assumption, by assumption⟩
    have r_0 : r ≠ 0 := fun h => h0 (h ▸ hgr)
    have r_1 : r ≠ 1 := fun h => h1 (h ▸ hgr)
    have w_0 : w ≠ 0 := fun h => h0 (h ▸ hgw)
    have w_1 : w ≠ 1 := fun h => h1 (h ▸ hgw)
    rw [if_pos hs, hpr]
    simp only
    have T : ∀ fd, fdGet (sys_close (sys_dup2 (sys_close (sys_close (sys_dup2
        (sys_close q (r1 : Int)) (w1 : Int) STDOUT_FILENO).2 (w1 : Int)) (w : Int)) (r : Int)
        STDIN_FILENO).2 (r : Int)).fds fd =
        if fd = r then none else if fd = 0 then some (FileObj.pipeRead (m - 1))
        else if fd = w then none else if fd = w1 then none
        else if fd = 1 then some (FileObj.pipeWrite m)
        else if fd = r1 then none else g0 fd := by
      intro fd
      simp only [fds_close, fds_dup2_stdout, fds_dup2_stdin, htab, overlay, hg]
      simp only [hne, Ne.symm hne, hrw, Ne.symm hrw, r1x.1, r1x.2, w1x.1, w1x.2, Ne.symm r1x.1,
        Ne.symm r1x.2, Ne.symm w1x.1, Ne.symm w1x.2, r_1, w_1, if_false, if_true]
      split_ifs <;> rfl
    have hm0 : m ≠ 0 := by omega
    refine ⟨?_, ?_, ?_, ?_⟩
    · intro x hx
      simp only [List.singleton_append, List.mem_cons, List.mem_singleton, List.not_mem_nil,
        or_false] at hx
      rcases hx with hx | hx
      · exact Or.inl hx
      · exact Or.inr ⟨hm, hx⟩
    · rw [T]; simp [Ne.symm r_1, Ne.symm w_1, Ne.symm w1_1]
    · rw [T]; simp [Ne.symm r_0, hm0]
    · intro fd hfd0 hfd1
      rw [T]
      split_ifs <;> simp

/-- The wiring of the child of the last stage `m ≥ 1`, forked in the state
`loop_inv`. -/
theorem child_wire_last (tokens : Tokens) (g0 : Nat → Option FileObj) (m start : Nat)
    (pipes : Int → Int × Int) (q : Proc) (hm : 1 ≤ m)
    (hj : junction_open g0 m start pipes (fdGet q.fds))
    (h0 : g0 0 ≠ none) (h1 : g0 1 ≠ none) :
    (∀ x ∈ (child_wire tokens start (tokens_get_length tokens) pipes (m : Int) q).1,
      x = (m : Int) - 1) ∧
    fdGet (child_wire tokens start (tokens_get_length tokens) pipes (m : Int) q).2.fds 1 =
      g0 1 ∧
    fdGet (child_wire tokens start (tokens_get_length tokens) pipes (m : Int) q).2.fds 0 =
      some (FileObj.pipeRead (m - 1)) ∧
    (∀ fd, fd ≠ 0 → fd ≠ 1 →
      fdGet (child_wire tokens start (tokens_get_length tokens) pipes (m : Int) q).2.fds fd
        = none ∨
      fdGet (child_wire tokens start (tokens_get_length tokens) pipes (m : Int) q).2.fds fd
        = g0 fd) := by
  have h3 : ((m : Int) ≠ -1) := by omega
  rcases hj with ⟨hm0, -, -⟩ | ⟨r, w, -, hs, hpr, hrw, hgr, hgw, hg⟩
  · omega
  · have r_0 : r ≠ 0 := fun h => h0 (h ▸ hgr)
    have r_1 : r ≠ 1 := fun h => h1 (h ▸ hgr)
    have w_0 : w ≠ 0 := fun h => h0 (h ▸ hgw)
    have w_1 : w ≠ 1 := fun h => h1 (h ▸ hgw)
    unfold child_wire
    rw [if_pos h3]
    simp only [ne_eq, not_true_eq_false, if_false]
    rw [if_pos hs, hpr]
    simp only
    have T : ∀ fd, fdGet (sys_close (sys_dup2 (sys_close q (w : Int)) (r : Int)
        STDIN_FILENO).2 (r : Int)).fds fd =
        if fd = r then none else if fd = 0 then some (FileObj.pipeRead (m - 1))
        else if fd = w then none else g0 fd := by
      intro fd
      simp only [fds_close, fds_dup2_stdin, hg, overlay]
      simp only [hrw, Ne.symm hrw, if_false, if_true]
      split_ifs <;> rfl
    refine ⟨by simp, ?_, ?_, ?_⟩
    · rw [T]; simp [Ne.symm r_1, Ne.symm w_1]
    · rw [T]; simp [Ne.symm r_0]
    · intro fd hfd0 hfd1
      rw [T]
      split_ifs <;> simp

/-- In the child, the observation `exec_program` logs at shell.c:203 is the
result of the pipe wiring on the state inherited at the fork. -/
theorem exec_program_child_wired (env : Env) (tokens : Tokens) (start end_ : Nat)
    (pipes : Int → Int × Int) (n_proc : Int) (p : Proc) (hfork : env.fork_ret p.nfork = 0) :
    (exec_program env tokens start end_ pipes n_proc p).proc.wired = p.wired ++
      [{ touched := (child_wire tokens start end_ pipes n_proc
            { p with calls := p.calls ++ [(start, end_, n_proc)], nfork := p.nfork + 1 }).1,
         pipe_fds := p.pipe_fds,
         fds := (child_wire tokens start end_ pipes n_proc
            { p with calls := p.calls ++ [(start, end_, n_proc)], nfork := p.nfork + 1 }).2.fds }] := by
  unfold exec_program
  simp only [sys_fork, hfork, lt_self_iff_false, if_false, if_true]
  have hw := same_logs_child_wire tokens start end_ pipes n_proc
    { p with calls := p.calls ++ [(start, end_, n_proc)], nfork := p.nfork + 1 }
  generalize child_wire tokens start end_ pipes n_proc
    { p with calls := p.calls ++ [(start, end_, n_proc)], nfork := p.nfork + 1 } = cw at hw
  obtain ⟨touched, q⟩ := cw
  simp only at hw ⊢
  have hq : (observe_wiring touched q).wired =
      p.wired ++ [{ touched := touched, pipe_fds := p.pipe_fds, fds := q.fds }] := by
    have e1 := same_logs_wired hw
    have e2 := same_logs_pipe_fds hw
    simp only at e1 e2
    simp [observe_wiring, e1, e2]
  split
  · exact hq
  · rename_i name hname
    have hh := same_logs_handle_args env tokens (some (resolve_program env name)) start end_
      env.redirect_in0 env.redirect_out0 (observe_wiring touched q)
    split
    · rename_i s heq
      rw [heq] at hh
      exact (same_logs_wired hh).trans hq
    · rename_i ret s heq
      rw [heq] at hh
      have hs : s.proc.wired = _ := (same_logs_wired hh).trans hq
      split
      · exact hs
      · split <;> exact hs

theorem main_line_eq (env : Env) (tokens : Tokens) (p : Proc)
    (hnb : lookup (tokens_get_token tokens 0) < 0) :
    main_line env tokens p = finish_line env tokens
      (main_loop env tokens (tokens_get_length tokens) 0
        { n_proc := 0, start := 0, pipes := env.pipes0 } p) := by
  unfold main_line finish_line
  simp only [not_le.mpr hnb, if_false]

theorem proc_void {α : Type} (r : Run α) : r.void.proc = r.proc := by
  cases r <;> rfl

theorem finish_ret_wired (env : Env) (tokens : Tokens) (s : LineState) (p : Proc) :
    ∃ l, (finish_line env tokens (Run.ret s p)).proc.wired = p.wired ++ l := by
  have key : ∀ n_proc, ∃ l, (exec_program env tokens s.start (tokens_get_length tokens) s.pipes
      n_proc p).proc.wired = p.wired ++ l := by
    intro n_proc
    obtain ⟨obs, extra, hf⟩ := exec_program_frame env tokens s.start (tokens_get_length tokens)
      s.pipes n_proc p
    exact ⟨obs, by rw [same_logs_wired hf]; rfl⟩
  simp only [finish_line, last_stage, proc_void]
  split
  · exact key (-1)
  · exact key s.n_proc

/-- Whatever happens in the rest of the line, the wiring observations already
logged stay at the front of the log. -/
theorem finish_loop_wired (env : Env) (tokens : Tokens) :
    ∀ (n idx : Nat) (s : LineState) (p : Proc),
      ∃ l, (finish_line env tokens (main_loop env tokens n idx s p)).proc.wired = p.wired ++ l := by
  intro n
  induction n with
  | zero =>
    intro idx s p
    simpa [main_loop] using finish_ret_wired env tokens s p
  | succ n ih =>
    intro idx s p
    unfold main_loop
    split
    · exact ⟨[], by simp [finish_line, Run.proc]⟩
    · split
      · obtain ⟨-, -, -, hw, -⟩ := sys_pipe_logs env s.pipes s.n_proc p
        generalize sys_pipe env s.pipes s.n_proc p = sp at hw
        obtain ⟨r, pipes1, p1⟩ := sp
        simp only at hw ⊢
        obtain ⟨obs, extra, hf⟩ := exec_program_frame env tokens s.start idx pipes1 s.n_proc p1
        have hx : (exec_program env tokens s.start idx pipes1 s.n_proc p1).proc.wired =
            p.wired ++ obs := by
          rw [same_logs_wired hf]; simp [with_logs, hw]
        generalize exec_program env tokens s.start idx pipes1 s.n_proc p1 = ex at hx
        cases ex with
        | ret a p2 =>
          simp only [Run.proc] at hx
          obtain ⟨l, hl⟩ := ih (idx + 1) ⟨s.n_proc + 1, idx + 1, pipes1⟩ p2
          exact ⟨obs ++ l, by rw [hl, hx, List.append_assoc]⟩
        | execd p2 => exact ⟨obs, by simpa [finish_line, Run.proc] using hx⟩
        | exited st p2 => exact ⟨obs, by simpa [finish_line, Run.proc] using hx⟩
        | fault p2 => exact ⟨obs, by simpa [finish_line, Run.proc] using hx⟩
      · exact ih (idx + 1) s p

theorem good_wiring_of (g0 : Nat → Option FileObj) (i k : Nat) (w : Wiring)
    (h0 : g0 0 ≠ none) (h1 : g0 1 ≠ none)
    (hg : ∀ fd j, g0 fd ≠ some (FileObj.pipeRead j) ∧ g0 fd ≠ some (FileObj.pipeWrite j))
    (hik : i ≤ k)
    (ht : ∀ x ∈ w.touched, (i < k ∧ x = (i : Int)) ∨ (1 ≤ i ∧ x = (i : Int) - 1))
    (hf1 : fdGet w.fds 1 = if i < k then some (FileObj.pipeWrite i) else g0 1)
    (hf0 : fdGet w.fds 0 = if i = 0 then g0 0 else some (FileObj.pipeRead (i - 1)))
    (hrest : ∀ fd, fd ≠ 0 → fd ≠ 1 → fdGet w.fds fd = none ∨ fdGet w.fds fd = g0 fd)
    (hlen : w.pipe_fds.length = min (i + 1) k)
    (hfree : ∀ ab ∈ w.pipe_fds, g0 ab.1 = none ∧ g0 ab.2 = none) :
    good_wiring g0 i k w := by
  have closed : ∀ a, g0 a = none → fdGet w.fds a = none := by
    intro a ha
    have a0 : a ≠ 0 := fun h => h0 (h ▸ ha)
    have a1 : a ≠ 1 := fun h => h1 (h ▸ ha)
    rcases hrest a a0 a1 with h | h
    · exact h
    · rw [h]; exact ha
  refine ⟨?_, ?_, fun h => by rw [hf1, if_neg h], fun h => by rw [hf0, if_pos h], hrest, ?_,
    ⟨hlen, fun ab hab => ⟨closed _ (hfree ab hab).1, closed _ (hfree ab hab).2⟩⟩, ?_⟩
  · rw [hf1]
    by_cases h : i < k
    · simp [h]
    · simp only [h, if_false, iff_false]
      exact (hg 1 i).2
  · rw [hf0]
    by_cases h : i = 0
    · subst h
      simp only [if_true, lt_self_iff_false, iff_false]
      exact (hg 0 _).1
    · simp [h]
      omega
  · intro x hx
    rcases ht x hx with ⟨h, e⟩ | ⟨h, e⟩ <;> omega
  · intro fd hfd0 hfd1 j
    rcases hrest fd hfd0 hfd1 with h | h
    · rw [h]; simp
    · rw [h]; exact hg fd j

/-- The child of the last stage. -/
theorem last_stage_child (env : Env) (tokens : Tokens) (g0 : Nat → Option FileObj) (k : Nat)
    (s : LineState) (p : Proc) (hchild : env.fork_ret k = 0) (hk : 1 ≤ k)
    (h0 : g0 0 ≠ none) (h1 : g0 1 ≠ none)
    (hg : ∀ fd j, g0 fd ≠ some (FileObj.pipeRead j) ∧ g0 fd ≠ some (FileObj.pipeWrite j))
    (hinv : loop_inv g0 k s p) :
    ∃ w, (last_stage env tokens s p).proc.wired.head? = some w ∧ good_wiring g0 k k w := by
  obtain ⟨hn, hf, hp, hw, ⟨hlen, hfree⟩, hj⟩ := hinv
  have hn0 : ¬ (s.n_proc = 0) := by rw [hn]; omega
  have hfk : env.fork_ret p.nfork = 0 := by rw [hf]; exact hchild
  simp only [last_stage, hn0, if_false, proc_void]
  rw [hn]
  have hE := exec_program_child_wired env tokens s.start (tokens_get_length tokens) s.pipes
    (k : Int) p hfk
  obtain ⟨c1, c2, c3, c4⟩ := child_wire_last tokens g0 k s.start s.pipes
    { p with calls := p.calls ++ [(s.start, tokens_get_length tokens, (k : Int))],
             nfork := p.nfork + 1 } hk hj h0 h1
  generalize child_wire tokens s.start (tokens_get_length tokens) s.pipes (k : Int)
    { p with calls := p.calls ++ [(s.start, tokens_get_length tokens, (k : Int))],
             nfork := p.nfork + 1 } = cw at hE c1 c2 c3 c4
  rw [hE, hw]
  refine ⟨⟨cw.1, p.pipe_fds, cw.2.fds⟩, rfl, ?_⟩
  refine good_wiring_of g0 k k _ h0 h1 hg (le_refl _) ?_ ?_ ?_ c4 ?_ hfree
  · intro x hx
    exact Or.inr ⟨hk, c1 x hx⟩
  · simpa using c2
  · have : k ≠ 0 := by omega
    simpa [this] using c3
  · simp [hlen]

/-- The child of a stage that is not the last one. -/
theorem inner_stage_child (env : Env) (tokens : Tokens) (g0 : Nat → Option FileObj) (i k : Nat)
    (start idx : Nat) (pipes : Int → Int × Int) (p : Proc)
    (hchild : env.fork_ret i = 0) (hik : i < k) (hidx : idx ≠ tokens_get_length tokens)
    (h0 : g0 0 ≠ none) (h1 : g0 1 ≠ none)
    (hg : ∀ fd j, g0 fd ≠ some (FileObj.pipeRead j) ∧ g0 fd ≠ some (FileObj.pipeWrite j))
    (hpre : pre_fork g0 i start pipes p) :
    ∃ w, (exec_program env tokens start idx pipes (i : Int) p).proc.wired = [w] ∧
      good_wiring g0 i k w := by
  obtain ⟨hf, hp, hw, ⟨hlen, hfree⟩, r1, w1, tab, hpipes, hne, hr1, hw1, hj, htab⟩ := hpre
  have hfk : env.fork_ret p.nfork = 0 := by rw [hf]; exact hchild
  have hE := exec_program_child_wired env tokens start idx pipes (i : Int) p hfk
  obtain ⟨c1, c2, c3, c4⟩ := child_wire_inner tokens g0 i start idx pipes
    { p with calls := p.calls ++ [(start, idx, (i : Int))], nfork := p.nfork + 1 }
    r1 w1 tab hpipes hne hr1 hw1 hj htab hidx h0 h1
  generalize child_wire tokens start idx pipes (i : Int)
    { p with calls := p.calls ++ [(start, idx, (i : Int))], nfork := p.nfork + 1 } = cw
    at hE c1 c2 c3 c4
  rw [hE, hw]
  refine ⟨⟨cw.1, p.pipe_fds, cw.2.fds⟩, rfl, ?_⟩
  refine good_wiring_of g0 i k _ h0 h1 hg (le_of_lt hik) ?_ ?_ c3 c4 ?_ hfree
  · intro x hx
    rcases c1 x hx with h | h
    · exact Or.inl ⟨hik, h⟩
    · exact Or.inr h
  · simpa [hik] using c2
  · simp [hlen]
    omega

/-- The loop of `main` in the process that is the shell for the stages before
stage `i` and the child of stage `i`. -/
theorem main_loop_child (env : Env) (tokens : Tokens) (g0 : Nat → Option FileObj) (i k : Nat)
    (hpipe : ∀ j, env.pipe_ok j = true) (hpar : ∀ j, j < i → 0 < env.fork_ret j)
    (hchild : env.fork_ret i = 0) (hik : i ≤ k) (hk : 1 ≤ k)
    (h0 : g0 0 ≠ none) (h1 : g0 1 ≠ none)
    (hg : ∀ fd j, g0 fd ≠ some (FileObj.pipeRead j) ∧ g0 fd ≠ some (FileObj.pipeWrite j)) :
    ∀ (n idx : Nat) (s : LineState) (p : Proc) (m : Nat), idx + n = tokens.length →
      loop_inv g0 m s p → m ≤ i → m + (positions_in tokens idx n).length = k →
      ∃ w, (finish_line env tokens (main_loop env tokens n idx s p)).proc.wired.head? = some w ∧
        good_wiring g0 i k w := by
  intro n
  induction n with
  | zero =>
    intro idx s p m _ hinv hmi hcount
    simp only [positions_in_zero, List.length_nil, add_zero] at hcount
    have hmk : m = k := hcount
    have hik2 : i = k := by omega
    rw [hmk] at hinv
    rw [hik2] at hchild ⊢
    simpa [main_loop, finish_line] using
      last_stage_child env tokens g0 k s p hchild hk h0 h1 hg hinv
  | succ n ih =>
    intro idx s p m hlen hinv hmi hcount
    have hi : idx < tokens.length := by omega
    have htok : tokens_get_token tokens idx = some tokens[idx] := by
      simp [tokens_get_token, hi]
    unfold main_loop
    simp only [htok]
    by_cases hp : tokens[idx] = PIPE
    · have hpos := positions_in_succ_pipe tokens idx n (by rw [htok, hp])
      rw [hpos] at hcount
      simp only [List.length_cons] at hcount
      have hpre := sys_pipe_pre_fork env g0 m s p hinv (hpipe m)
      generalize sys_pipe env s.pipes s.n_proc p = sp at hpre
      obtain ⟨r, pipes1, p1⟩ := sp
      simp only at hpre
      simp only [hp, if_true, hinv.1]
      by_cases hmi2 : m < i
      · obtain ⟨q, hq, hinv2⟩ := exec_program_parent_step env tokens g0 m s.start idx pipes1 p1
          hpre (hpar m hmi2)
        rw [hq]
        simp only
        exact ih (idx + 1) _ q (m + 1) (by omega) hinv2 (by omega) (by omega)
      · have hmi3 : m = i := by omega
        subst hmi3
        obtain ⟨w, hw, hgood⟩ := inner_stage_child env tokens g0 m k s.start idx pipes1 p1
          hchild (by omega) (by simp [tokens_get_length]; omega) h0 h1 hg hpre
        refine ⟨w, ?_, hgood⟩
        generalize exec_program env tokens s.start idx pipes1 (m : Int) p1 = ex at hw
        cases ex with
        | ret a p2 =>
          simp only [Run.proc] at hw
          obtain ⟨l, hl⟩ := finish_loop_wired env tokens n (idx + 1)
            ⟨(m : Int) + 1, idx + 1, pipes1⟩ p2
          simp only
          rw [hl, hw]
          rfl
        | execd p2 => simpa [finish_line, Run.proc] using congrArg List.head? hw
        | exited st p2 => simpa [finish_line, Run.proc] using congrArg List.head? hw
        | fault p2 => simpa [finish_line, Run.proc] using congrArg List.head? hw
    · have hpos := positions_in_succ_other tokens idx n (by rw [htok]; simpa using hp)
      rw [hpos] at hcount
      simp only [hp, if_false]
      exact ih (idx + 1) s p m (by omega) hinv hmi hcount

theorem initProc_inherited (t0 : List (Option Nat)) (fd j : Nat) :
    fdGet (initProc t0).fds fd ≠ some (FileObj.pipeRead j) ∧
    fdGet (initProc t0).fds fd ≠ some (FileObj.pipeWrite j) := by
  simp only [initProc]
  induction t0 generalizing fd with
  | nil => simp [fdGet]
  | cons x t ih =>
    cases fd with
    | zero => cases x <;> simp [fdGet]
    | succ fd => simpa [fdGet] using ih fd

theorem loop_inv_init (env : Env) (t0 : List (Option Nat)) :
    loop_inv (fdGet (initProc t0).fds) 0 { n_proc := 0, start := 0, pipes := env.pipes0 }
      (initProc t0) :=
  ⟨rfl, rfl, rfl, rfl, ⟨rfl, by simp [initProc]⟩, Or.inl ⟨rfl, rfl, fun _ => rfl⟩⟩

/-- The loop of `main` in the shell when every `pipe` and every `fork` succeeds:
it runs to its end and keeps the loop invariant. -/
theorem main_loop_parent_inv (env : Env) (tokens : Tokens) (g0 : Nat → Option FileObj)
    (hpipe : ∀ j, env.pipe_ok j = true) (hpar : ∀ j, 0 < env.fork_ret j) :
    ∀ (n idx : Nat) (s : LineState) (p : Proc) (m : Nat), idx + n ≤ tokens.length →
      loop_inv g0 m s p →
      ∃ s1 p1, main_loop env tokens n idx s p = Run.ret s1 p1 ∧
        loop_inv g0 (m + (positions_in tokens idx n).length) s1 p1 := by
  intro n
  induction n with
  | zero =>
    intro idx s p m _ hinv
    exact ⟨s, p, rfl, by simpa [positions_in_zero] using hinv⟩
  | succ n ih =>
    intro idx s p m hlen hinv
    have hi : idx < tokens.length := by omega
    have htok : tokens_get_token tokens idx = some tokens[idx] := by
      simp [tokens_get_token, hi]
    unfold main_loop
    simp only [htok]
    by_cases hp : tokens[idx] = PIPE
    · have hpos := positions_in_succ_pipe tokens idx n (by rw [htok, hp])
      have hpre := sys_pipe_pre_fork env g0 m s p hinv (hpipe m)
      generalize sys_pipe env s.pipes s.n_proc p = sp at hpre
      obtain ⟨r, pipes1, p1⟩ := sp
      simp only at hpre
      simp only [hp, if_true, hinv.1]
      obtain ⟨q, hq, hinv2⟩ := exec_program_parent_step env tokens g0 m s.start idx pipes1 p1
        hpre (hpar m)
      rw [hq]
      simp only
      obtain ⟨s1, p2, e1, e2⟩ := ih (idx + 1) _ q (m + 1) (by omega) hinv2
      refine ⟨s1, p2, e1, ?_⟩
      rw [hpos]
      simpa [Nat.add_assoc, Nat.add_comm 1] using e2
    · have hpos := positions_in_succ_other tokens idx n (by rw [htok]; simpa using hp)
      simp only [hp, if_false]
      rw [hpos]
      exact ih (idx + 1) s p m (by omega) hinv

/-- After the shell forked the last stage successfully, its descriptor table is
the one from before the line. -/
theorem last_stage_parent (env : Env) (tokens : Tokens) (g0 : Nat → Option FileObj) (k : Nat)
    (s : LineState) (p : Proc) (hfork : 0 < env.fork_ret k) (hinv : loop_inv g0 k s p) :
    ∃ q, last_stage env tokens s p = Run.ret () q ∧ ∀ fd, fdGet q.fds fd = g0 fd := by
  obtain ⟨hn, hf, hp, hw, -, hj⟩ := hinv
  have h1 : ¬ (env.fork_ret p.nfork < 0) := by rw [hf]; omega
  have h2 : ¬ (env.fork_ret p.nfork = 0) := by rw [hf]; omega
  rcases hj with ⟨hm, hs, hg⟩ | ⟨r, w, hm, hs, hpr, hrw, hgr, hgw, hg⟩
  · have hn0 : s.n_proc = 0 := by rw [hn, hm]; rfl
    simp only [last_stage, hn0, if_true]
    unfold exec_program
    simp only [sys_fork, h1, h2, if_false, ne_eq, not_true_eq_false, false_and, Run.void]
    exact ⟨_, rfl, hg⟩
  · have hn0 : ¬ (s.n_proc = 0) := by rw [hn]; omega
    have hcond : (s.n_proc ≠ -1 ∧ s.start ≠ 0) := ⟨by rw [hn]; omega, hs⟩
    simp only [last_stage, hn0, if_false]
    unfold exec_program
    simp only [sys_fork, h1, h2, if_false]
    rw [if_pos hcond, hn, hpr]
    refine ⟨_, rfl, ?_⟩
    intro fd
    show fdGet (sys_close (sys_close _ (r : Int)) (w : Int)).fds fd = _
    rw [fds_close, fds_close]
    simp only [hg, overlay]
    split_ifs <;> simp [*]

/-- A redirect call on a path fails exactly when its `open` fails. -/
theorem redirect_fails_iff (env : Env) (p : Proc) (inp : Bool) (path : String) :
    (redirect env p inp (some path)).1 = 1 ↔ env.open_ok p.nopen = false := by
  constructor
  · intro h
    by_contra hne
    have hok : env.open_ok p.nopen = true := by simpa using hne
    rw [redirect_fst env p inp path hok] at h
    exact absurd h (by decide)
  · intro h
    cases inp <;> simp [redirect, sys_open, h, sys_close]

theorem resolve_program_eq (env : Env) (name : String) :
    resolve_program env name = (search_path_programs env name).getD name := by
  unfold resolve_program
  cases search_path_programs env name <;> rfl

/-- The list `pipe_positions tokens` holds exactly the positions of the `|`
tokens, in strictly increasing order. -/
theorem pipe_positions_spec (tokens : Tokens) :
    (pipe_positions tokens).Pairwise (fun a b => a < b) ∧
    ∀ j, j ∈ pipe_positions tokens ↔ tokens_get_token tokens j = some PIPE := by
  constructor
  · exact List.Pairwise.filter _ (List.pairwise_lt_range _)
  · intro j
    simp only [pipe_positions, List.mem_filter, List.mem_range, decide_eq_true_eq]
    constructor
    · exact fun h => h.2
    · intro h
      refine ⟨?_, h⟩
      by_contra hlt
      simp [tokens_get_token, List.getElem?_eq_none (Nat.le_of_not_lt hlt)] at h

theorem kept_tokens_no_operator (l : List String)
    (h : ∀ t ∈ l, is_redirection t = false) : kept_tokens false l = l := by
  induction l with
  | nil => rfl
  | cons t l ih =>
    have ht := h t (List.mem_cons_self _ _)
    simp only [kept_tokens, ht]
    rw [ih (fun u hu => h u (List.mem_cons_of_mem _ hu))]
    simp

/-- For every stage range inside the token sequence that holds no redirection
operator after its first token, `handle_args` writes the null sentinel at index
`end_ - start`, which is the number of slots of `args`: one past the last slot. -/
theorem handle_args_sentinel_index (env : Env) (tokens : Tokens) (program : CStr)
    (start end_ : Nat) (p : Proc)
    (hse : start < end_) (hend : end_ ≤ tokens.length) (hopen : ∀ n, env.open_ok n = true)
    (hnoop : ∀ t ∈ stage_rest tokens start end_, is_redirection t = false) :
    ∃ s, handle_args env tokens program start end_ false false p = ScanResult.done 0 s ∧
      (args_slots start end_, none) ∈ s.args := by
  obtain ⟨s, h1, h2, -⟩ := handle_args_scan_result env tokens program start end_ p hse hend hopen
  refine ⟨s, h1, ?_⟩
  rw [h2, kept_tokens_no_operator _ hnoop]
  have hl : (stage_rest tokens start end_).length + 1 = args_slots start end_ := by
    simp only [stage_rest, args_slots, List.length_take, List.length_drop]
    omega
  rw [hl]
  simp

/-- When the loop of `handle_args` runs to its end, whatever the redirect calls
did, it has appended exactly the kept tokens. -/
theorem handle_args_loop_done (env : Env) (tokens : Tokens) :
    ∀ (n i : Nat) (s s1 : ArgScan), i + n ≤ tokens.length →
      ¬ (s.redirect_in = true ∧ s.redirect_out = true) →
      handle_args_loop env tokens n i s = ScanResult.done 0 s1 →
      s1.args = s.args ++
          arg_writes s.index (kept_tokens (s.redirect_in || s.redirect_out)
            ((tokens.drop i).take n)) ∧
        s1.index = s.index +
          (kept_tokens (s.redirect_in || s.redirect_out) ((tokens.drop i).take n)).length := by
  intro n
  induction n with
  | zero =>
    intro i s s1 _ _ h
    simp only [handle_args_loop, ScanResult.done.injEq, true_and] at h
    subst h
    simp [kept_tokens, arg_writes]
  | succ n ih =>
    intro i s s1 hin hx h
    have hi : i < tokens.length := by omega
    have htok : tokens_get_token tokens i = some tokens[i] := by
      simp [tokens_get_token, hi]
    rw [take_drop_succ tokens i n hi]
    unfold handle_args_loop at h
    simp only [htok] at h
    obtain ⟨rin, rout, idx, args, proc⟩ := s
    cases rin with
    | true =>
      cases rout with
      | true => simp at hx
      | false =>
        simp only [if_true] at h
        split at h
        · simp at h
        · have := ih (i + 1) _ s1 (by omega) (by simp) h
          simpa [kept_tokens] using this
    | false =>
      cases rout with
      | true =>
        simp only [Bool.false_eq_true, if_false, if_true] at h
        split at h
        · simp at h
        · have := ih (i + 1) _ s1 (by omega) (by simp) h
          simpa [kept_tokens] using this
      | false =>
        simp only [Bool.false_eq_true, if_false] at h
        by_cases hin_op : tokens[i] = REDIRECTION_IN
        · simp only [hin_op, if_true] at h
          have := ih (i + 1) _ s1 (by omega) (by simp) h
          simpa [kept_tokens, is_redirection, hin_op] using this
        · by_cases hout_op : tokens[i] = REDIRECTION_OUT
          · have hne : ¬ (REDIRECTION_OUT = REDIRECTION_IN) := by decide
            simp only [hout_op, hne, if_true, if_false] at h
            have := ih (i + 1) _ s1 (by omega) (by simp) h
            simpa [kept_tokens, is_redirection, hout_op] using this
          · simp only [hin_op, hout_op, if_false] at h
            have := ih (i + 1) _ s1 (by omega) (by simp) h
            obtain ⟨h2, h3⟩ := this
            refine ⟨?_, ?_⟩
            · simpa [kept_tokens, is_redirection, hin_op, hout_op, arg_writes] using h2
            · simp [kept_tokens, is_redirection, hin_op, hout_op] at h3 ⊢
              omega

/-- Whenever `handle_args`, started in unarmed mode on a range inside the token
sequence, returns 0, the `args` it built hold the program, the kept tokens and
the null sentinel. -/
theorem handle_args_done (env : Env) (tokens : Tokens) (program : CStr) (start end_ : Nat)
    (p : Proc) (s : ArgScan) (hse : start < end_) (hend : end_ ≤ tokens.length)
    (h : handle_args env tokens program start end_ false false p = ScanResult.done 0 s) :
    s.args = [(0, program)] ++
      arg_writes 1 (kept_tokens false (stage_rest tokens start end_)) ++
      [((kept_tokens false (stage_rest tokens start end_)).length + 1, none)] := by
  unfold handle_args at h
  simp only at h
  split at h
  · rename_i s1 heq
    obtain ⟨h2, h3⟩ := handle_args_loop_done env tokens _ _ _ s1 (by omega) (by simp) heq
    simp only [ScanResult.done.injEq, true_and] at h
    subst h
    simp only [Bool.or_self] at h2 h3
    simp [h2, h3, stage_rest, Nat.add_comm]
  · rename_i hnot
    exact absurd h (hnot s)

/-- The `execv` calls of one `exec_program` call, in more detail than
`exec_program_execvs`: `handle_args` returned a value other than 1. -/
theorem exec_program_execvs_done (env : Env) (tokens : Tokens) (start end_ : Nat)
    (pipes : Int → Int × Int) (n_proc : Int) (p : Proc) :
    (exec_program env tokens start end_ pipes n_proc p).proc.execvs = p.execvs ∨
    ∃ name q ret s, tokens_get_token tokens start = some name ∧
      handle_args env tokens (some (resolve_program env name)) start end_
        env.redirect_in0 env.redirect_out0 q = ScanResult.done ret s ∧ ret ≠ 1 ∧
      (exec_program env tokens start end_ pipes n_proc p).proc.execvs = p.execvs ++
        [(some (resolve_program env name), s.args)] := by
  unfold exec_program
  simp only [sys_fork]
  split
  · left; rfl
  · split
    · have hw := same_logs_child_wire tokens start end_ pipes n_proc
        { p with calls := p.calls ++ [(start, end_, n_proc)], nfork := p.nfork + 1 }
      generalize child_wire tokens start end_ pipes n_proc
        { p with calls := p.calls ++ [(start, end_, n_proc)], nfork := p.nfork + 1 } = cw at hw
      obtain ⟨touched, q⟩ := cw
      simp only at hw ⊢
      have hq : (observe_wiring touched q).execvs = p.execvs := by
        have := same_logs_execvs hw
        simpa [observe_wiring] using this
      split
      · left; exact hq
      · rename_i name hname
        have hh := same_logs_handle_args env tokens (some (resolve_program env name)) start end_
          env.redirect_in0 env.redirect_out0 (observe_wiring touched q)
        split
        · rename_i s heq
          rw [heq] at hh
          left
          exact (same_logs_execvs hh).trans hq
        · rename_i ret s heq
          rw [heq] at hh
          have hs : s.proc.execvs = p.execvs := (same_logs_execvs hh).trans hq
          split
          · left; simpa [Run.proc] using hs
          · rename_i hret
            right
            refine ⟨name, observe_wiring touched q, ret, s, hname, heq, hret, ?_⟩
            split <;> simp [Run.proc, hs]
    · left
      simp only [Run.proc]
      split
      · refine Eq.trans (same_logs_execvs
          (same_logs_trans (same_logs_close _ _) (same_logs_close _ _))) ?_
        rfl
      · rfl

theorem handle_args_loop_ret (env : Env) (tokens : Tokens) :
    ∀ (n i : Nat) (s s1 : ArgScan) (ret : Int),
      handle_args_loop env tokens n i s = ScanResult.done ret s1 → ret = 0 ∨ ret = 1 := by
  intro n
  induction n with
  | zero =>
    intro i s s1 ret h
    simp only [handle_args_loop, ScanResult.done.injEq] at h
    exact Or.inl h.1.symm
  | succ n ih =>
    intro i s s1 ret h
    unfold handle_args_loop at h
    simp only at h
    split at h
    · split at h
      · simp only [ScanResult.done.injEq] at h
        exact Or.inr h.1.symm
      · exact ih _ _ _ _ h
    · split at h
      · split at h
        · simp only [ScanResult.done.injEq] at h
          exact Or.inr h.1.symm
        · exact ih _ _ _ _ h
      · split at h
        · cases h
        · split at h
          · exact ih _ _ _ _ h
          · split at h
            · exact ih _ _ _ _ h
            · exact ih _ _ _ _ h

/-- The function `handle_args` returns 0 or 1. -/
theorem handle_args_ret (env : Env) (tokens : Tokens) (program : CStr) (start end_ : Nat)
    (rin rout : Bool) (p : Proc) (ret : Int) (s : ArgScan)
    (h : handle_args env tokens program start end_ rin rout p = ScanResult.done ret s) :
    ret = 0 ∨ ret = 1 := by
  unfold handle_args at h
  simp only at h
  split at h
  · simp only [ScanResult.done.injEq] at h
    exact Or.inl h.1.symm
  · exact handle_args_loop_ret env tokens _ _ _ _ _ h

/-- When the loop of `handle_args` runs to its end, the process state is the one
reached by performing, in order, exactly the redirections of the scan. -/
theorem handle_args_loop_proc (env : Env) (tokens : Tokens) :
    ∀ (n i : Nat) (s s1 : ArgScan), i + n ≤ tokens.length →
      ¬ (s.redirect_in = true ∧ s.redirect_out = true) →
      handle_args_loop env tokens n i s = ScanResult.done 0 s1 →
      s1.proc = apply_redirects env s.proc
        (redirect_pairs (scan_mode s.redirect_in s.redirect_out) ((tokens.drop i).take n)) := by
  intro n
  induction n with
  | zero =>
    intro i s s1 _ _ h
    simp only [handle_args_loop, ScanResult.done.injEq, true_and] at h
    subst h
    simp [redirect_pairs, apply_redirects]
  | succ n ih =>
    intro i s s1 hin hx h
    have hi : i < tokens.length := by omega
    have htok : tokens_get_token tokens i = some tokens[i] := by
      simp [tokens_get_token, hi]
    rw [take_drop_succ tokens i n hi]
    unfold handle_args_loop at h
    simp only [htok] at h
    obtain ⟨rin, rout, idx, args, proc⟩ := s
    cases rin with
    | true =>
      cases rout with
      | true => simp at hx
      | false =>
        simp only [if_true] at h
        split at h
        · simp at h
        · have := ih (i + 1) _ s1 (by omega) (by simp) h
          rw [this]
          simp [scan_mode, redirect_pairs, apply_redirects]
    | false =>
      cases rout with
      | true =>
        simp only [Bool.false_eq_true, if_false, if_true] at h
        split at h
        · simp at h
        · have := ih (i + 1) _ s1 (by omega) (by simp) h
          rw [this]
          simp [scan_mode, redirect_pairs, apply_redirects]
      | false =>
        simp only [Bool.false_eq_true, if_false] at h
        by_cases hin_op : tokens[i] = REDIRECTION_IN
        · simp only [hin_op, if_true] at h
          have := ih (i + 1) _ s1 (by omega) (by simp) h
          rw [this]
          simp [scan_mode, redirect_pairs, hin_op]
        · by_cases hout_op : tokens[i] = REDIRECTION_OUT
          · have hne : ¬ (REDIRECTION_OUT = REDIRECTION_IN) := by decide
            simp only [hout_op, hne, if_true, if_false] at h
            have := ih (i + 1) _ s1 (by omega) (by simp) h
            rw [this]
            simp [scan_mode, redirect_pairs, hout_op, hne]
          · simp only [hin_op, hout_op, if_false] at h
            have := ih (i + 1) _ s1 (by omega) (by simp) h
            rw [this]
            simp [scan_mode, redirect_pairs, hin_op, hout_op]

/-- Whenever `handle_args`, started in unarmed mode on a range inside the token
sequence, returns 0, the process state is the one reached by performing exactly
the redirections of the stage. -/
theorem handle_args_proc (env : Env) (tokens : Tokens) (program : CStr) (start end_ : Nat)
    (p : Proc) (s : ArgScan) (hse : start < end_) (hend : end_ ≤ tokens.length)
    (h : handle_args env tokens program start end_ false false p = ScanResult.done 0 s) :
    s.proc = apply_redirects env p (redirect_pairs none (stage_rest tokens start end_)) := by
  unfold handle_args at h
  simp only at h
  split at h
  · rename_i s1 heq
    have h2 := handle_args_loop_proc env tokens _ _ _ s1 (by omega) (by simp) heq
    simp only [ScanResult.done.injEq, true_and] at h
    subst h
    simpa [scan_mode, stage_rest] using h2
  · rename_i hnot
    exact absurd h (hnot s)

theorem dangling_false_nil_ne (l : List String) (h : dangling false l = true) : l ≠ [] := by
  intro hl
  subst hl
  simp [dangling] at h

theorem redirect_pairs_none_cons (t : String) (rest : List String) :
    redirect_pairs none (t :: rest) =
      if t = REDIRECTION_IN then redirect_pairs (some true) rest
      else if t = REDIRECTION_OUT then redirect_pairs (some false) rest
      else redirect_pairs none rest := by
  rw [redirect_pairs]

/-- An operator left dangling at the end of a scan asks for no redirection: the
redirections are those of the tokens before it. -/
theorem redirect_pairs_dangling (l : List String) :
    ∀ (m : Option Bool), dangling m.isSome l = true →
      redirect_pairs m l = redirect_pairs m l.dropLast := by
  induction l with
  | nil => intro m _; rfl
  | cons t rest ih =>
    intro m h
    cases m with
    | some d =>
      simp only [Option.isSome_some, dangling] at h
      have hne := dangling_false_nil_ne rest h
      obtain ⟨u, rest2, hr⟩ := List.exists_cons_of_ne_nil hne
      subst hr
      have := ih none (by simpa using h)
      rw [List.dropLast_cons₂]
      show (d, t) :: redirect_pairs none (u :: rest2) =
        (d, t) :: redirect_pairs none (u :: rest2).dropLast
      rw [this]
    | none =>
      simp only [Option.isSome_none, dangling] at h
      cases rest with
      | nil =>
        simp only [List.dropLast_single, redirect_pairs]
        split
        · rfl
        · split <;> rfl
      | cons u rest2 =>
        rw [List.dropLast_cons₂]
        by_cases hin_op : t = REDIRECTION_IN
        · simp only [is_redirection, hin_op, beq_self_eq_true, Bool.true_or, if_true] at h
          have e := ih (some true) (by simpa using h)
          rw [redirect_pairs_none_cons t (u :: rest2),
            redirect_pairs_none_cons t (u :: rest2).dropLast, if_pos hin_op, if_pos hin_op]
          exact e
        · by_cases hout_op : t = REDIRECTION_OUT
          · simp only [is_redirection, hout_op, beq_self_eq_true, Bool.or_true, if_true] at h
            have e := ih (some false) (by simpa using h)
            rw [redirect_pairs_none_cons t (u :: rest2),
              redirect_pairs_none_cons t (u :: rest2).dropLast, if_neg hin_op, if_neg hin_op,
              if_pos hout_op, if_pos hout_op]
            exact e
          · have hno : is_redirection t = false := by
              simp [is_redirection, hin_op, hout_op]
            simp only [hno, Bool.false_eq_true, if_false] at h
            have e := ih none (by simpa using h)
            rw [redirect_pairs_none_cons t (u :: rest2),
              redirect_pairs_none_cons t (u :: rest2).dropLast, if_neg hin_op, if_neg hin_op,
              if_neg hout_op, if_neg hout_op]
            exact e

/-! ## Claims about the argument vector -/

/-- C2: for a stage range `[start, end_)` with `start < end_` inside the token
sequence, scanned from unarmed mode with every redirect (every `open`)
succeeding, `handle_args` returns 0 and the writes to `args` are `args[0] =
program`, then, in order and at consecutive indices from 1, exactly the tokens
at positions `start + 1 .. end_ - 1` that are neither an operator met in unarmed
mode nor the token following one, then the null sentinel. -/
theorem handle_args_builds_vector (env : Env) (tokens : Tokens) (program : CStr)
    (start end_ : Nat) (p : Proc)
    (hse : start < end_) (hend : end_ ≤ tokens.length) (hopen : ∀ n, env.open_ok n = true) :
    ∃ s, handle_args env tokens program start end_ false false p = ScanResult.done 0 s ∧
      s.args = [(0, program)] ++
        arg_writes 1 (kept_tokens false (stage_rest tokens start end_)) ++
        [((kept_tokens false (stage_rest tokens start end_)).length + 1, none)] := by
  obtain ⟨s, h1, h2, -⟩ := handle_args_scan_result env tokens program start end_ p
    hse hend hopen
  exact ⟨s, h1, h2⟩

/-- Witness for C2 on the line `cat < in.txt -n > out.txt x`. -/
theorem handle_args_builds_vector_witness :
    (0 < 7 ∧ 7 ≤ ["cat", "<", "in.txt", "-n", ">", "out.txt", "x"].length ∧
      ∀ n, env_child.open_ok n = true) ∧
    ∃ s, handle_args env_child ["cat", "<", "in.txt", "-n", ">", "out.txt", "x"] (some "cat") 0 7
        false false (initProc std_fds) = ScanResult.done 0 s ∧
      s.args = [(0, some "cat"), (1, some "-n"), (2, some "x"), (3, none)] :=
  ⟨⟨by decide, by decide, fun _ => rfl⟩,
    handle_args_builds_vector env_child ["cat", "<", "in.txt", "-n", ">", "out.txt", "x"]
      (some "cat") 0 7 (initProc std_fds) (by decide) (by decide) (fun _ => rfl)⟩

/-- C3, counterexample: for the line `echo hello`, when the PATH search resolves
`echo` to `/bin/echo`, the vector passed to `execv` is
`["/bin/echo", "hello", NULL]`: element 0 is the resolved path, not `echo`. -/
theorem argv0_not_invoked_name :
    (exec_program env_child_resolved ["echo", "hello"] 0 2 env_child_resolved.pipes0 (-1)
      (initProc std_fds)).proc.execvs =
      [(some "/bin/echo", [(0, some "/bin/echo"), (1, some "hello"), (2, none)])] := by
  decide

/-- C3, amended: every `execv` call made by a call of `exec_program` on a stage
range starting at `start` has, as program and as element 0 of its argument
vector, the path the PATH search found for the token at position `start`, or
that token itself when the search found nothing. Element 0 is written once,
first. -/
theorem argv0_is_resolved_program (env : Env) (tokens : Tokens) (start end_ : Nat)
    (pipes : Int → Int × Int) (n_proc : Int) (p : Proc) (c : CStr × List (Nat × CStr))
    (hc : c ∈ (exec_program env tokens start end_ pipes n_proc p).proc.execvs.drop
      p.execvs.length) :
    ∃ name rest, tokens_get_token tokens start = some name ∧
      c.1 = some ((search_path_programs env name).getD name) ∧
      c.2 = (0, some ((search_path_programs env name).getD name)) :: rest ∧
      ∀ w ∈ rest, w.1 ≠ 0 := by
  rcases exec_program_execvs env tokens start end_ pipes n_proc p with h | ⟨name, q, hn, h⟩
  · rw [h] at hc
    simp at hc
  · rw [h] at hc
    simp only [List.drop_left, List.mem_singleton] at hc
    obtain ⟨-, rest, hrest, hall⟩ := handle_args_inv env tokens (some (resolve_program env name))
      start end_ env.redirect_in0 env.redirect_out0 q
    rw [resolve_program_eq] at hrest hc
    refine ⟨name, rest, hn, by rw [hc], by rw [hc]; exact hrest, ?_⟩
    intro w hw
    have := (hall w hw).1
    omega

/-- Witness for the amended C3 on `echo hello` with `/bin/echo` found. -/
theorem argv0_is_resolved_program_witness :
    ((some "/bin/echo", [(0, some "/bin/echo"), (1, some "hello"), (2, none)]) ∈
      (exec_program env_child_resolved ["echo", "hello"] 0 2 env_child_resolved.pipes0 (-1)
        (initProc std_fds)).proc.execvs.drop (initProc std_fds).execvs.length) ∧
    ∃ name rest, tokens_get_token ["echo", "hello"] 0 = some name ∧
      (some "/bin/echo" : CStr) =
        some ((search_path_programs env_child_resolved name).getD name) ∧
      [(0, some "/bin/echo"), (1, some "hello"), (2, none)] =
        (0, some ((search_path_programs env_child_resolved name).getD name)) :: rest ∧
      ∀ w ∈ rest, w.1 ≠ 0 :=
  ⟨by decide,
    argv0_is_resolved_program env_child_resolved ["echo", "hello"] 0 2 env_child_resolved.pipes0 (-1)
      (initProc std_fds) (some "/bin/echo", [(0, some "/bin/echo"), (1, some "hello"), (2, none)])
      (by decide)⟩

/-- C6, counterexample: on the stage `cat <`, whose last token is an operator met
in unarmed mode, `handle_args` returns 0, leaving the process state as it was,
and `exec_program` calls `execv` with the vector `["cat", NULL]`. -/
theorem dangling_operator_accepted :
    dangling false (stage_rest ["cat", "<"] 0 2) = true ∧
    (∃ s, handle_args env_child ["cat", "<"] (some "cat") 0 2 false false (initProc std_fds) =
      ScanResult.done 0 s ∧ s.proc = initProc std_fds) ∧
    (exec_program env_child ["cat", "<"] 0 2 env_child.pipes0 (-1) (initProc std_fds)).proc.execvs
      = [(some "cat", [(0, some "cat"), (1, none)])] :=
  ⟨by decide, ⟨_, rfl, rfl⟩, by decide⟩

/-- C6, amended: for a stage range inside the token sequence, scanned from
unarmed mode with every redirect (every `open`) succeeding, whose last token is
an operator met in unarmed mode, `handle_args` does not fail: it returns 0 with
the mode still armed and the operator left out of `args`; no redirect is
performed for the operator, the process state being the one reached by
performing exactly the redirections of the tokens before it; and
`exec_program`, in the child, goes on to call `execv` for the stage. -/
theorem dangling_operator_dropped (env : Env) (tokens : Tokens) (start end_ : Nat)
    (pipes : Int → Int × Int) (n_proc : Int) (p : Proc) (name : String)
    (hse : start < end_) (hend : end_ ≤ tokens.length) (hopen : ∀ n, env.open_ok n = true)
    (hdangling : dangling false (stage_rest tokens start end_) = true)
    (hfork : env.fork_ret p.nfork = 0) (hname : tokens_get_token tokens start = some name)
    (hin0 : env.redirect_in0 = false) (hout0 : env.redirect_out0 = false) :
    (∀ program q, ∃ s,
      handle_args env tokens program start end_ false false q = ScanResult.done 0 s ∧
      (s.redirect_in || s.redirect_out) = true ∧
      s.args = [(0, program)] ++
        arg_writes 1 (kept_tokens false (stage_rest tokens start end_)) ++
        [((kept_tokens false (stage_rest tokens start end_)).length + 1, none)] ∧
      s.proc = apply_redirects env q
        (redirect_pairs none (stage_rest tokens start end_).dropLast)) ∧
    (exec_program env tokens start end_ pipes n_proc p).proc.execvs = p.execvs ++
      [(some (resolve_program env name),
        [(0, some (resolve_program env name))] ++
          arg_writes 1 (kept_tokens false (stage_rest tokens start end_)) ++
          [((kept_tokens false (stage_rest tokens start end_)).length + 1, none)])] := by
  refine ⟨?_, exec_program_child_execv env tokens start end_ pipes n_proc p name hfork hname
    hse hend hopen hin0 hout0⟩
  intro program q
  obtain ⟨s, h1, h2, h3⟩ := handle_args_scan_result env tokens program start end_ q
    hse hend hopen
  refine ⟨s, h1, by rw [h3, hdangling], h2, ?_⟩
  rw [handle_args_proc env tokens program start end_ q s hse hend h1]
  rw [redirect_pairs_dangling _ none (by simpa using hdangling)]

/-- Witness for the amended C6 on the stage `cat < in.txt -n >`: the vector is
`[program, "-n", NULL]` and the only redirect performed is the one to `in.txt`. -/
theorem dangling_operator_dropped_witness :
    (0 < 5 ∧ 5 ≤ ["cat", "<", "in.txt", "-n", ">"].length ∧
      (∀ n, env_child.open_ok n = true) ∧
      dangling false (stage_rest ["cat", "<", "in.txt", "-n", ">"] 0 5) = true ∧
      env_child.fork_ret (initProc std_fds).nfork = 0 ∧
      tokens_get_token ["cat", "<", "in.txt", "-n", ">"] 0 = some "cat" ∧
      env_child.redirect_in0 = false ∧ env_child.redirect_out0 = false) ∧
    ((∀ program q, ∃ s,
      handle_args env_child ["cat", "<", "in.txt", "-n", ">"] program 0 5 false false q =
        ScanResult.done 0 s ∧
      (s.redirect_in || s.redirect_out) = true ∧
      s.args = [(0, program), (1, some "-n"), (2, none)] ∧
      s.proc = (redirect env_child q true (some "in.txt")).2) ∧
    (exec_program env_child ["cat", "<", "in.txt", "-n", ">"] 0 5 env_child.pipes0 (-1)
        (initProc std_fds)).proc.execvs =
      [(some "cat", [(0, some "cat"), (1, some "-n"), (2, none)])]) :=
  ⟨⟨by decide, by decide, fun _ => rfl, by decide, rfl, rfl, rfl, rfl⟩,
    dangling_operator_dropped env_child ["cat", "<", "in.txt", "-n", ">"] 0 5 env_child.pipes0 (-1)
      (initProc std_fds) "cat" (by decide) (by decide) (fun _ => rfl) (by decide) rfl rfl rfl rfl⟩

/-- C9, counterexample: for the line `< in.txt cat`, when the PATH search finds
nothing for `<`, the vector passed to `execv` is `["<", "in.txt", "cat", NULL]`:
element 0 is a redirection operator, and neither it nor the token after it was
consumed. -/
theorem operator_as_argv0 :
    (exec_program env_child ["<", "in.txt", "cat"] 0 3 env_child.pipes0 (-1)
      (initProc std_fds)).proc.execvs =
      [(some "<", [(0, some "<"), (1, some "in.txt"), (2, some "cat"), (3, none)])] := by
  decide

/-- C9, amended: for a stage range `[start, end_)` with `start < end_` inside the
token sequence, scanned from unarmed mode, in every argument vector that
`exec_program` passes to `execv` no element after element 0 is a redirection
operator token `<` or `>`, and the elements after element 0 are exactly the
tokens at positions `start + 1 .. end_ - 1` left when every operator met in
unarmed mode is taken out together with the token that follows it, then the
null sentinel. -/
theorem no_operator_after_argv0 (env : Env) (tokens : Tokens) (start end_ : Nat)
    (pipes : Int → Int × Int) (n_proc : Int) (p : Proc) (c : CStr × List (Nat × CStr))
    (hse : start < end_) (hend : end_ ≤ tokens.length)
    (hin0 : env.redirect_in0 = false) (hout0 : env.redirect_out0 = false)
    (hc : c ∈ (exec_program env tokens start end_ pipes n_proc p).proc.execvs.drop
      p.execvs.length) :
    (∀ w ∈ c.2, w.1 ≠ 0 → w.2 ≠ some REDIRECTION_IN ∧ w.2 ≠ some REDIRECTION_OUT) ∧
    c.2 = [(0, c.1)] ++ arg_writes 1 (kept_tokens false (stage_rest tokens start end_)) ++
      [((kept_tokens false (stage_rest tokens start end_)).length + 1, none)] := by
  rcases exec_program_execvs_done env tokens start end_ pipes n_proc p with
    h | ⟨name, q, ret, s, -, hs, hret, h⟩
  · rw [h] at hc
    simp at hc
  · rw [h] at hc
    simp only [List.drop_left, List.mem_singleton] at hc
    have hret0 : ret = 0 := by
      rcases handle_args_ret _ _ _ _ _ _ _ _ _ _ hs with h0 | h1
      · exact h0
      · exact absurd h1 hret
    rw [hret0, hin0, hout0] at hs
    have hargs := handle_args_done env tokens _ start end_ q s hse hend hs
    have hinv := handle_args_inv env tokens (some (resolve_program env name)) start end_
      false false q
    rw [hs] at hinv
    obtain ⟨-, rest, hrest, hall⟩ := hinv
    simp only [ScanResult.scan] at hrest
    subst hc
    refine ⟨?_, hargs⟩
    intro w hw hw0
    simp only at hw
    rw [hrest] at hw
    rcases List.mem_cons.mp hw with hw | hw
    · exact absurd (by rw [hw]) hw0
    · exact (hall w hw).2

/-- Witness for the amended C9 on the stage `cat < in.txt -n`, whose vector is
`["cat", "-n", NULL]`. -/
theorem no_operator_after_argv0_witness :
    (0 < 4 ∧ 4 ≤ ["cat", "<", "in.txt", "-n"].length ∧
      env_child.redirect_in0 = false ∧ env_child.redirect_out0 = false ∧
      (some "cat", [(0, some "cat"), (1, some "-n"), (2, none)]) ∈
        (exec_program env_child ["cat", "<", "in.txt", "-n"] 0 4 env_child.pipes0 (-1)
          (initProc std_fds)).proc.execvs.drop (initProc std_fds).execvs.length) ∧
    ((∀ w ∈ [(0, some "cat"), (1, some "-n"), ((2 : Nat), (none : CStr))],
        w.1 ≠ 0 → w.2 ≠ some REDIRECTION_IN ∧ w.2 ≠ some REDIRECTION_OUT) ∧
      [(0, some "cat"), (1, some "-n"), ((2 : Nat), (none : CStr))] =
        [(0, some "cat")] ++
          arg_writes 1 (kept_tokens false (stage_rest ["cat", "<", "in.txt", "-n"] 0 4)) ++
          [((kept_tokens false (stage_rest ["cat", "<", "in.txt", "-n"] 0 4)).length + 1,
            none)]) :=
  ⟨⟨by decide, by decide, rfl, rfl, by decide⟩,
    no_operator_after_argv0 env_child ["cat", "<", "in.txt", "-n"] 0 4 env_child.pipes0 (-1)
      (initProc std_fds) (some "cat", [(0, some "cat"), (1, some "-n"), (2, none)])
      (by decide) (by decide) rfl rfl (by decide)⟩

/-- C10, failing input: for the stage `echo hello` (`start = 0`, `end_ = 2`) the
array `args` has 2 slots, and `handle_args` writes 3 entries, the null sentinel
at index 2, one past the last slot. -/
theorem handle_args_writes_past_args :
    args_slots 0 2 = 2 ∧
    ∃ s, handle_args env_child ["echo", "hello"] (some "echo") 0 2 false false
        (initProc std_fds) = ScanResult.done 0 s ∧
      s.args = [(0, some "echo"), (1, some "hello"), (2, none)] :=
  ⟨rfl, _, rfl, by decide⟩

/-! ## Claims about the pipeline loop -/

/-- C1: for a token sequence whose first token is no built-in name, with `|`
tokens at the positions `pipe_positions tokens` (k of them), the shell process
(where `fork` never returns 0) processes the line to its end; the
`exec_program` calls it makes are, in order, exactly the k+1 calls on the ranges
`[0, q0), [q0+1, q1), ..., [q(k-1)+1, length)`; it calls `pipe` exactly k times;
no range contains a `|` token, and every token that is not `|` lies in exactly
one range. -/
theorem main_line_stage_calls (env : Env) (tokens : Tokens) (p : Proc)
    (hnb : lookup (tokens_get_token tokens 0) < 0) (hpar : ∀ n, env.fork_ret n ≠ 0) :
    (∃ q, main_line env tokens p = Run.ret () q) ∧
    ((main_line env tokens p).proc.calls.drop p.calls.length).map (fun c => (c.1, c.2.1)) =
      stage_ranges 0 (pipe_positions tokens) tokens.length ∧
    ((main_line env tokens p).proc.calls.drop p.calls.length).length =
      (pipe_positions tokens).length + 1 ∧
    (main_line env tokens p).proc.npipe = p.npipe + (pipe_positions tokens).length ∧
    (∀ se ∈ stage_ranges 0 (pipe_positions tokens) tokens.length,
      ∀ j, se.1 ≤ j → j < se.2 → tokens_get_token tokens j ≠ some PIPE) ∧
    (∀ j, j < tokens.length → tokens_get_token tokens j ≠ some PIPE →
      (stage_ranges 0 (pipe_positions tokens) tokens.length).countP
        (fun se => decide (se.1 ≤ j ∧ j < se.2)) = 1) := by
  obtain ⟨q, hq, hc, hn⟩ := main_line_parent env tokens p hnb hpar
  have hr : (q.calls.drop p.calls.length).map (fun c => (c.1, c.2.1)) =
      stage_ranges 0 (pipe_positions tokens) tokens.length := by
    rw [hc, stage_ranges_eq_loop_calls 0 0]
    simp
  rw [hq]
  simp only [Run.proc]
  refine ⟨⟨q, rfl⟩, hr, ?_, hn, ?_, ?_⟩
  · have := congrArg List.length hr
    rw [List.length_map, stage_ranges_length] at this
    exact this
  · have h := stage_ranges_no_pipe tokens tokens.length 0 0 (fun j _ hj => by omega)
    rw [← pipe_positions_eq] at h
    simpa using h
  · intro j hj hne
    have h := stage_ranges_count tokens tokens.length 0 0 j (le_refl _) (by omega) (by omega)
      (fun _ => hne)
    rw [← pipe_positions_eq] at h
    simpa using h

/-- Witness for C1 on the line `cat < in.txt | sort | wc -l`. -/
theorem main_line_stage_calls_witness :
    (lookup (tokens_get_token ["cat", "<", "in.txt", "|", "sort", "|", "wc", "-l"] 0) < 0 ∧
      ∀ n, env_parent.fork_ret n ≠ 0) ∧
    ((∃ q, main_line env_parent ["cat", "<", "in.txt", "|", "sort", "|", "wc", "-l"]
        (initProc std_fds) = Run.ret () q) ∧
    ((main_line env_parent ["cat", "<", "in.txt", "|", "sort", "|", "wc", "-l"]
        (initProc std_fds)).proc.calls.drop (initProc std_fds).calls.length).map
          (fun c => (c.1, c.2.1)) =
      stage_ranges 0 (pipe_positions ["cat", "<", "in.txt", "|", "sort", "|", "wc", "-l"])
        ["cat", "<", "in.txt", "|", "sort", "|", "wc", "-l"].length ∧
    ((main_line env_parent ["cat", "<", "in.txt", "|", "sort", "|", "wc", "-l"]
        (initProc std_fds)).proc.calls.drop (initProc std_fds).calls.length).length =
      (pipe_positions ["cat", "<", "in.txt", "|", "sort", "|", "wc", "-l"]).length + 1 ∧
    (main_line env_parent ["cat", "<", "in.txt", "|", "sort", "|", "wc", "-l"]
        (initProc std_fds)).proc.npipe =
      (initProc std_fds).npipe +
        (pipe_positions ["cat", "<", "in.txt", "|", "sort", "|", "wc", "-l"]).length ∧
    (∀ se ∈ stage_ranges 0 (pipe_positions ["cat", "<", "in.txt", "|", "sort", "|", "wc", "-l"])
        ["cat", "<", "in.txt", "|", "sort", "|", "wc", "-l"].length,
      ∀ j, se.1 ≤ j → j < se.2 →
        tokens_get_token ["cat", "<", "in.txt", "|", "sort", "|", "wc", "-l"] j ≠ some PIPE) ∧
    (∀ j, j < ["cat", "<", "in.txt", "|", "sort", "|", "wc", "-l"].length →
      tokens_get_token ["cat", "<", "in.txt", "|", "sort", "|", "wc", "-l"] j ≠ some PIPE →
      (stage_ranges 0 (pipe_positions ["cat", "<", "in.txt", "|", "sort", "|", "wc", "-l"])
        ["cat", "<", "in.txt", "|", "sort", "|", "wc", "-l"].length).countP
        (fun se => decide (se.1 ≤ j ∧ j < se.2)) = 1)) :=
  ⟨⟨by decide, fun _ => by simp [env_parent]⟩,
    main_line_stage_calls env_parent ["cat", "<", "in.txt", "|", "sort", "|", "wc", "-l"]
      (initProc std_fds) (by decide) (fun _ => by simp [env_parent])⟩

/-- The stage ranges of `cat < in.txt | sort | wc -l` and the calls made for it. -/
theorem three_stage_line_calls :
    stage_ranges 0 (pipe_positions ["cat", "<", "in.txt", "|", "sort", "|", "wc", "-l"]) 8 =
      [(0, 3), (4, 5), (6, 8)] ∧
    (main_line env_parent ["cat", "<", "in.txt", "|", "sort", "|", "wc", "-l"]
      (initProc std_fds)).proc.calls = [(0, 3, 0), (4, 5, 1), (6, 8, 2)] := by
  decide

/-! ## Claims about descriptors and processes -/

/-- When every `pipe` call and every `fork` call succeeds, the shell processes the
line to its end and its descriptor table is then the one from before the line:
both ends of every junction are closed again. -/
theorem main_line_restores_fds (env : Env) (tokens : Tokens) (t0 : List (Option Nat))
    (hnb : lookup (tokens_get_token tokens 0) < 0)
    (hpipe : ∀ j, env.pipe_ok j = true) (hpar : ∀ j, 0 < env.fork_ret j) :
    ∃ q, main_line env tokens (initProc t0) = Run.ret () q ∧
      ∀ fd, fdGet q.fds fd = fdGet (initProc t0).fds fd := by
  rw [main_line_eq env tokens _ hnb]
  obtain ⟨s1, p1, e1, hinv⟩ := main_loop_parent_inv env tokens (fdGet (initProc t0).fds) hpipe
    hpar (tokens_get_length tokens) 0 _ (initProc t0) 0 (by simp [tokens_get_length])
    (loop_inv_init env t0)
  rw [e1]
  exact last_stage_parent env tokens _ _ s1 p1 (hpar _) hinv

/-- C4, failing input: for the line `a | b`, when the `fork` for the second stage
fails, the shell finishes the line with both ends of junction 0 still open, at
descriptors 3 and 4, which were closed before the line. -/
theorem main_line_leaks_junction :
    (∃ q, main_line env_fork_fails ["a", "|", "b"] (initProc std_fds) = Run.ret () q) ∧
    (main_line env_fork_fails ["a", "|", "b"] (initProc std_fds)).proc.fds =
      [some (FileObj.inherited 0), some (FileObj.inherited 1), some (FileObj.inherited 2),
        some (FileObj.pipeRead 0), some (FileObj.pipeWrite 0)] ∧
    fdGet (initProc std_fds).fds 3 = none ∧ fdGet (initProc std_fds).fds 4 = none :=
  ⟨⟨_, rfl⟩, by decide, rfl, rfl⟩

/-- C5, counterexample: two runs on which the claim fails. On `a | b | c`, when
the `fork` for stage 1 had failed in the shell (which then closed nothing), the
child of stage 2 still holds both ends of junction 0 at descriptors 3 and 4,
which `pipe` had returned for that junction. On `a | b`, run by a shell whose
descriptor 1 is closed, `pipe` returns descriptors 1 and 3 for junction 0, and in
the child of stage 0 descriptor 1, an original descriptor of the junction, is
open after the wiring. -/
theorem child_inherits_leaked_junction :
    (main_line env_stage_after_failure ["a", "|", "b", "|", "c"] (initProc std_fds)).proc.wired =
      [{ touched := [1], pipe_fds := [(3, 4), (5, 6)],
         fds := [some (FileObj.pipeRead 1), some (FileObj.inherited 1),
                 some (FileObj.inherited 2), some (FileObj.pipeRead 0),
                 some (FileObj.pipeWrite 0), none, none] }] ∧
    (main_line (env_stage 0) ["a", "|", "b"] (initProc fds_stdout_closed)).proc.wired =
      [{ touched := [0], pipe_fds := [(1, 3)],
         fds := [some (FileObj.inherited 0), some (FileObj.pipeWrite 0),
                 some (FileObj.inherited 2), none] }] := by
  decide

/-- C5, amended: in a pipeline with `k ≥ 1` junctions (that is `n = k + 1 ≥ 2`
stages) whose `pipe` calls all succeed, started by a shell with descriptors 0
and 1 open, take a stage index `i ≤ k` and the process that was the shell while
the stages before `i` were forked, each fork returning a child pid, and that is
the child of the fork for stage `i`. Its first wiring observation (shell.c:203,
after the pipe wiring and before argument handling) exists and satisfies:
standard output refers to the write end of junction `i` iff `i < k`, and to what
it referred to in the shell otherwise; standard input refers to the read end of
junction `i - 1` iff `0 < i`, and to what it referred to in the shell
otherwise; every other descriptor is closed or as it was in the shell before the
line; every index at which the child read `pipes` is between 0 and `i` and below
`k`; the descriptor pairs of all junctions created so far (`min (i + 1) k` of
them) are closed; and no descriptor other than 0 and 1 refers to an end of any
junction. -/
theorem child_of_stage_wiring (env : Env) (tokens : Tokens) (t0 : List (Option Nat)) (i : Nat)
    (hnb : lookup (tokens_get_token tokens 0) < 0)
    (hk : 1 ≤ (pipe_positions tokens).length) (hi : i ≤ (pipe_positions tokens).length)
    (hpipe : ∀ j, env.pipe_ok j = true) (hpar : ∀ j, j < i → 0 < env.fork_ret j)
    (hchild : env.fork_ret i = 0)
    (h0 : fdGet (initProc t0).fds 0 ≠ none) (h1 : fdGet (initProc t0).fds 1 ≠ none) :
    ∃ w, (main_line env tokens (initProc t0)).proc.wired.head? = some w ∧
      (fdGet w.fds 1 = some (FileObj.pipeWrite i) ↔ i < (pipe_positions tokens).length) ∧
      (fdGet w.fds 0 = some (FileObj.pipeRead (i - 1)) ↔ 0 < i) ∧
      (¬ i < (pipe_positions tokens).length → fdGet w.fds 1 = fdGet (initProc t0).fds 1) ∧
      (i = 0 → fdGet w.fds 0 = fdGet (initProc t0).fds 0) ∧
      (∀ fd, fd ≠ 0 → fd ≠ 1 →
        fdGet w.fds fd = none ∨ fdGet w.fds fd = fdGet (initProc t0).fds fd) ∧
      (∀ x ∈ w.touched, 0 ≤ x ∧ x ≤ (i : Int) ∧ x < ((pipe_positions tokens).length : Int)) ∧
      (w.pipe_fds.length = min (i + 1) (pipe_positions tokens).length ∧
        ∀ ab ∈ w.pipe_fds, fdGet w.fds ab.1 = none ∧ fdGet w.fds ab.2 = none) ∧
      (∀ fd, fd ≠ 0 → fd ≠ 1 → ∀ j,
        fdGet w.fds fd ≠ some (FileObj.pipeRead j) ∧
        fdGet w.fds fd ≠ some (FileObj.pipeWrite j)) := by
  rw [main_line_eq env tokens _ hnb]
  exact main_loop_child env tokens (fdGet (initProc t0).fds) i (pipe_positions tokens).length
    hpipe hpar hchild hi hk h0 h1 (initProc_inherited t0) (tokens_get_length tokens) 0 _
    (initProc t0) 0 (by simp [tokens_get_length]) (loop_inv_init env t0) (Nat.zero_le _)
    (by rw [pipe_positions_eq]; simp [tokens_get_length])

/-- Witness for the amended C5: the child of stage 1 of
`cat in.txt | sort | wc -l`. -/
theorem child_of_stage_wiring_witness :
    (lookup (tokens_get_token ["cat", "in.txt", "|", "sort", "|", "wc", "-l"] 0) < 0 ∧
      1 ≤ (pipe_positions ["cat", "in.txt", "|", "sort", "|", "wc", "-l"]).length ∧
      1 ≤ (pipe_positions ["cat", "in.txt", "|", "sort", "|", "wc", "-l"]).length ∧
      (∀ j, (env_stage 1).pipe_ok j = true) ∧ (∀ j, j < 1 → 0 < (env_stage 1).fork_ret j) ∧
      (env_stage 1).fork_ret 1 = 0 ∧
      fdGet (initProc std_fds).fds 0 ≠ none ∧ fdGet (initProc std_fds).fds 1 ≠ none) ∧
    ∃ w, (main_line (env_stage 1) ["cat", "in.txt", "|", "sort", "|", "wc", "-l"]
        (initProc std_fds)).proc.wired.head? = some w ∧
      (fdGet w.fds 1 = some (FileObj.pipeWrite 1) ↔
        1 < (pipe_positions ["cat", "in.txt", "|", "sort", "|", "wc", "-l"]).length) ∧
      (fdGet w.fds 0 = some (FileObj.pipeRead (1 - 1)) ↔ 0 < 1) ∧
      (¬ 1 < (pipe_positions ["cat", "in.txt", "|", "sort", "|", "wc", "-l"]).length →
        fdGet w.fds 1 = fdGet (initProc std_fds).fds 1) ∧
      (1 = 0 → fdGet w.fds 0 = fdGet (initProc std_fds).fds 0) ∧
      (∀ fd, fd ≠ 0 → fd ≠ 1 →
        fdGet w.fds fd = none ∨ fdGet w.fds fd = fdGet (initProc std_fds).fds fd) ∧
      (∀ x ∈ w.touched, 0 ≤ x ∧ x ≤ ((1 : Nat) : Int) ∧
        x < ((pipe_positions ["cat", "in.txt", "|", "sort", "|", "wc", "-l"]).length : Int)) ∧
      (w.pipe_fds.length =
          min (1 + 1) (pipe_positions ["cat", "in.txt", "|", "sort", "|", "wc", "-l"]).length ∧
        ∀ ab ∈ w.pipe_fds, fdGet w.fds ab.1 = none ∧ fdGet w.fds ab.2 = none) ∧
      (∀ fd, fd ≠ 0 → fd ≠ 1 → ∀ j,
        fdGet w.fds fd ≠ some (FileObj.pipeRead j) ∧
        fdGet w.fds fd ≠ some (FileObj.pipeWrite j)) :=
  ⟨⟨by decide, by decide, by decide, fun _ => rfl,
      fun j hj => by simp [env_stage, env_parent, Nat.ne_of_lt hj], rfl, by decide, by decide⟩,
    child_of_stage_wiring (env_stage 1) ["cat", "in.txt", "|", "sort", "|", "wc", "-l"] std_fds 1
      (by decide) (by decide) (by decide) (fun _ => rfl)
      (fun j hj => by simp [env_stage, env_parent, Nat.ne_of_lt hj]) rfl (by decide) (by decide)⟩

/-- The wiring observation of the child of stage 1 of `cat in.txt | sort | wc -l`,
evaluated: it read `pipes[1]` and `pipes[0]`; 0 is the read end of junction 0,
1 the write end of junction 1, and 3, 4, 5, 6 are closed. -/
theorem stage_one_observation :
    (main_line (env_stage 1) ["cat", "in.txt", "|", "sort", "|", "wc", "-l"]
      (initProc std_fds)).proc.wired =
      [{ touched := [1, 0], pipe_fds := [(3, 4), (5, 6)],
         fds := [some (FileObj.pipeRead 0), some (FileObj.pipeWrite 1),
                 some (FileObj.inherited 2), none, none, none, none] }] := by
  decide

/-- C7, failing input: in the child (`fork` returned 0), when `execv` fails for
`nosuchprogram`, and when `handle_args` returns 1 for `cat < missing`,
`exec_program` returns 1 to `main`; the child does not exit, and `main_line`
returns in it, so that the read loop goes on inside the child. -/
theorem exec_program_child_returns :
    (∃ q, exec_program env_child_noexec ["nosuchprogram"] 0 1 env_child_noexec.pipes0 (-1)
      (initProc std_fds) = Run.ret 1 q) ∧
    (∃ q, exec_program env_child_noopen ["cat", "<", "missing"] 0 3 env_child_noopen.pipes0 (-1)
      (initProc std_fds) = Run.ret 1 q) ∧
    (∃ q, main_line env_child_noexec ["nosuchprogram"] (initProc std_fds) = Run.ret () q) ∧
    (∃ q, main_line env_child_noopen ["cat", "<", "missing"] (initProc std_fds) = Run.ret () q) :=
  ⟨⟨_, rfl⟩, ⟨_, rfl⟩, ⟨_, rfl⟩, ⟨_, rfl⟩⟩

/-- No path through `exec_program` ends the process with `exit`. -/
theorem exec_program_never_exits (env : Env) (tokens : Tokens) (start end_ : Nat)
    (pipes : Int → Int × Int) (n_proc : Int) (p : Proc) (st : Int) (q : Proc) :
    exec_program env tokens start end_ pipes n_proc p ≠ Run.exited st q := by
  unfold exec_program
  simp only [sys_fork]
  repeat' split
  all_goals simp

/-- C8, failing input: for the empty token sequence the token-0 accessor yields
no token and `lookup` returns -1, and one iteration of the read loop calls
`exec_program` once, on the empty range `[0, 0)` with `n_proc = -1`, which calls
`fork` once; no pipe is created. -/
theorem main_line_empty_forks (env : Env) (p : Proc) :
    tokens_get_token [] 0 = none ∧ lookup (tokens_get_token [] 0) = -1 ∧
    (main_line env [] p).proc.calls = p.calls ++ [(0, 0, -1)] ∧
    (main_line env [] p).proc.nfork = p.nfork + 1 ∧
    (main_line env [] p).proc.npipe = p.npipe := by
  have hnb : lookup (tokens_get_token [] 0) < 0 := by decide
  obtain ⟨obs, extra, hf⟩ := exec_program_frame env [] 0 0 env.pipes0 (-1) p
  refine ⟨rfl, rfl, ?_, ?_, ?_⟩
  · rw [main_line_eq env [] p hnb]
    simp only [tokens_get_length, List.length_nil, main_loop, finish_line, last_stage, if_true,
      proc_void]
    rw [same_logs_calls hf]; rfl
  · rw [main_line_eq env [] p hnb]
    simp only [tokens_get_length, List.length_nil, main_loop, finish_line, last_stage, if_true,
      proc_void]
    rw [same_logs_nfork hf]; rfl
  · rw [main_line_eq env [] p hnb]
    simp only [tokens_get_length, List.length_nil, main_loop, finish_line, last_stage, if_true,
      proc_void]
    rw [same_logs_npipe hf]; rfl

end Shell
